import Mathlib

set_option maxHeartbeats 1000000
set_option maxRecDepth 40000

/-!
Shallow embedding of the minesweeper core (saecki/minesweeper).

The board model is taken from src/minesweeper/src/lib.rs, the solver and
board-validation search from src/minesweeper/src/gen.rs, and the
combination enumerator from src/minesweeper/src/combination_iter.rs.
Machine integers are modelled as Nat (u8/u16, with explicit wrap-around
where the source can underflow) and Int (i16 coordinates; the programs
under study keep all values far away from the i16 bounds).  The
recursive procedures of the source are given an explicit fuel argument
and return none when the fuel runs out; on every path actually taken by
the source, sufficient fuel makes the result `some`.
-/

namespace Minesweeper

/-- Rust enum Visibility (lib.rs). -/
inductive Visibility where
  | Hide
  | Hint
  | Show
deriving DecidableEq, Repr

/-- Rust enum FieldState (lib.rs); Free carries the neighbor mine count (u8). -/
inductive FieldState where
  | Free (neighbors : Nat)
  | Mine
deriving DecidableEq, Repr

/-- Rust struct Field (lib.rs). -/
structure Field where
  visibility : Visibility
  state : FieldState
deriving DecidableEq, Repr

instance : Inhabited Field := ⟨⟨.Hide, .Free 0⟩⟩

/-- Rust struct Game (lib.rs); the play_state, difficulty and unambigous
fields are irrelevant to the solver and omitted. -/
structure Game where
  num_mines : Nat
  width : Int
  height : Int
  fields : List Field
deriving DecidableEq, Repr

/-- Rust enum Error (gen.rs). -/
inductive Error where
  | Invalid
  | Ambigous
deriving DecidableEq, Repr

/-- Rust enum Solve (gen.rs). -/
inductive Solve where
  | Progress (g : Game)
  | NoMissingNeighbors
  | Done
deriving DecidableEq, Repr

/-- Wrapping u8 subtraction (release-mode semantics of `a - b` on u8),
for arguments below 256. -/
def sub8 (a b : Nat) : Nat := (a + 256 - b) % 256

/-! ## Combination enumerator (combination_iter.rs) -/

/-- Rust struct CombinationIter: `indices: [u8; 8], n: u8, k: u8, stop: bool`. -/
structure CombinationIter where
  indices : List Nat
  n : Nat
  k : Nat
  stop : Bool
deriving DecidableEq, Repr

/-- CombinationIter::new. -/
def CombinationIter.new (n k : Nat) : CombinationIter :=
  { indices := (List.range k).foldl (fun idcs i => idcs.set i i) (List.replicate 8 0)
    n := n
    k := k
    stop := false }

/-- The index-increment loop of CombinationIter::next
(`for i in (0..self.k).rev()` with an early break), iterating over the
descending list of loop indices. -/
def CombinationIter.incAux (n : Nat) : List Nat → List Nat → Bool → (List Nat × Bool)
  | [], idcs, stop => (idcs, stop)
  | i :: rest, idcs, stop =>
    let idcs1 := idcs.set i (idcs.getD i 0 + 1)
    if n ≤ idcs1.getD i 0 then
      let idcs2 := if 0 < i then idcs1.set i (idcs1.getD (i - 1) 0 + 2) else idcs1
      let stop2 := if n ≤ idcs2.getD i 0 then true else stop
      CombinationIter.incAux n rest idcs2 stop2
    else
      (idcs1, stop)

/-- CombinationIter::next (Iterator impl). -/
def CombinationIter.next (it : CombinationIter) : Option (List Bool × CombinationIter) :=
  if it.stop then none
  else
    let nums := (it.indices.take it.k).foldl (fun ns idx => ns.set idx true)
      (List.replicate 8 false)
    let (idcs, stop) := CombinationIter.incAux it.n ((List.range it.k).reverse) it.indices it.stop
    some (nums, { it with indices := idcs, stop := stop })

/-- Collect at most `fuel` yielded masks of the iterator. -/
def CombinationIter.toList : Nat → CombinationIter → List (List Bool)
  | 0, _ => []
  | fuel + 1, it =>
    match it.next with
    | none => []
    | some (m, it2) => m :: CombinationIter.toList fuel it2

/-- The full mask sequence produced by CombinationIter::new(n, k); 300 is
more than the largest possible number of yields C(8,4) = 70 plus slack,
so for a terminating iterator this is the entire sequence. -/
def comb_masks (n k : Nat) : List (List Bool) :=
  (CombinationIter.new n k).toList 300

/-! ## Adjacency bitset (gen.rs) -/

/-- Rust struct Adjacents(u8). -/
structure Adjacents where
  val : Nat
deriving DecidableEq, Repr

def Adjacents.NW : Nat := 0x01
def Adjacents.N : Nat := 0x02
def Adjacents.NE : Nat := 0x04
def Adjacents.E : Nat := 0x08
def Adjacents.SE : Nat := 0x10
def Adjacents.S : Nat := 0x20
def Adjacents.SW : Nat := 0x40
def Adjacents.W : Nat := 0x80

/-- Adjacents::new. -/
def Adjacents.new (nw n ne e se s sw w : Bool) : Adjacents :=
  ⟨(if nw then Adjacents.NW else 0) |||
    (if n then Adjacents.N else 0) |||
    (if ne then Adjacents.NE else 0) |||
    (if e then Adjacents.E else 0) |||
    (if se then Adjacents.SE else 0) |||
    (if s then Adjacents.S else 0) |||
    (if sw then Adjacents.SW else 0) |||
    (if w then Adjacents.W else 0)⟩

/-- Adjacents::num — u8::count_ones. -/
def Adjacents.num (a : Adjacents) : Nat :=
  ((List.range 8).filter (fun i => a.val.testBit i)).length

/-- Adjacents::offsets — offsets of set bits in the fixed
NW, N, NE, E, SE, S, SW, W order. -/
def Adjacents.offsets (a : Adjacents) : List (Int × Int) :=
  (if a.val &&& Adjacents.NW ≠ 0 then [((-1 : Int), (-1 : Int))] else []) ++
  (if a.val &&& Adjacents.N ≠ 0 then [((0 : Int), (-1 : Int))] else []) ++
  (if a.val &&& Adjacents.NE ≠ 0 then [((1 : Int), (-1 : Int))] else []) ++
  (if a.val &&& Adjacents.E ≠ 0 then [((1 : Int), (0 : Int))] else []) ++
  (if a.val &&& Adjacents.SE ≠ 0 then [((1 : Int), (1 : Int))] else []) ++
  (if a.val &&& Adjacents.S ≠ 0 then [((0 : Int), (1 : Int))] else []) ++
  (if a.val &&& Adjacents.SW ≠ 0 then [((-1 : Int), (1 : Int))] else []) ++
  (if a.val &&& Adjacents.W ≠ 0 then [((-1 : Int), (0 : Int))] else [])

/-! ## Board primitives (lib.rs) -/

/-- Game::is_in_bounds. -/
def Game.is_in_bounds (g : Game) (x y : Int) : Bool :=
  0 ≤ x && x < g.width && 0 ≤ y && y < g.height

/-- Index access `self[(x, y)]` (flattened index width*y + x). -/
def Game.get (g : Game) (x y : Int) : Field :=
  g.fields.getD (g.width * y + x).toNat default

/-- Index-mutating write `self[(x, y)] = f`. -/
def Game.set (g : Game) (x y : Int) (f : Field) : Game :=
  { g with fields := g.fields.set (g.width * y + x).toNat f }

/-- Game::is_solved (gen.rs): every Free field is shown. -/
def Game.is_solved (g : Game) : Bool :=
  g.fields.all fun f =>
    match f.state with
    | .Free _ => f.visibility = .Show
    | .Mine => true

/-- Game::open_mine_count (lib.rs): num_mines minus the number of hints. -/
def Game.open_mine_count (g : Game) : Int :=
  (g.num_mines : Int) - (g.fields.countP (fun f => f.visibility = .Hint) : Int)

/-- Game::is_hinted_field (gen.rs). -/
def Game.is_hinted_field (g : Game) (x y : Int) : Bool :=
  if ¬ g.is_in_bounds x y then false
  else (g.get x y).visibility = .Hint

/-- Game::is_hidden_field (gen.rs). -/
def Game.is_hidden_field (g : Game) (x y : Int) : Bool :=
  if ¬ g.is_in_bounds x y then false
  else (g.get x y).visibility = .Hide

/-- Game::hinted_adjacents (gen.rs). -/
def Game.hinted_adjacents (g : Game) (x y : Int) : Adjacents :=
  Adjacents.new
    (g.is_hinted_field (x - 1) (y - 1))
    (g.is_hinted_field (x + 0) (y - 1))
    (g.is_hinted_field (x + 1) (y - 1))
    (g.is_hinted_field (x + 1) (y + 0))
    (g.is_hinted_field (x + 1) (y + 1))
    (g.is_hinted_field (x + 0) (y + 1))
    (g.is_hinted_field (x - 1) (y + 1))
    (g.is_hinted_field (x - 1) (y + 0))

/-- Game::hidden_adjacents (gen.rs). -/
def Game.hidden_adjacents (g : Game) (x y : Int) : Adjacents :=
  Adjacents.new
    (g.is_hidden_field (x - 1) (y - 1))
    (g.is_hidden_field (x + 0) (y - 1))
    (g.is_hidden_field (x + 1) (y - 1))
    (g.is_hidden_field (x + 1) (y + 0))
    (g.is_hidden_field (x + 1) (y + 1))
    (g.is_hidden_field (x + 0) (y + 1))
    (g.is_hidden_field (x - 1) (y + 1))
    (g.is_hidden_field (x - 1) (y + 0))

/-- Game::hint_ (lib.rs): toggle a hint marker on a concealed cell. -/
def Game.hint_ (g : Game) (x y : Int) : Game :=
  if ¬ g.is_in_bounds x y then g
  else
    let field := g.get x y
    if field.visibility = .Hint then g.set x y { field with visibility := .Hide }
    else if field.visibility = .Hide then g.set x y { field with visibility := .Hint }
    else g

/-- Game::hint_hidden_field (gen.rs). -/
def Game.hint_hidden_field (g : Game) (x y : Int) : Game :=
  if ¬ g.is_in_bounds x y then g
  else
    let field := g.get x y
    if field.visibility = .Hide then g.set x y { field with visibility := .Hint }
    else g

/-- Game::increment_field (gen.rs). -/
def Game.increment_field (g : Game) (x y : Int) : Game :=
  if g.is_in_bounds x y then
    match (g.get x y).state with
    | .Free neighbors => g.set x y { g.get x y with state := .Free (neighbors + 1) }
    | .Mine => g
  else g

/-- The 8 neighbor offsets in the column-major order used by
show_neighbors, hint_hidden_field batches, rule B of solve_board, and
increment_field batches. -/
def sweepOffsets : List (Int × Int) :=
  [(-1, -1), (-1, 0), (-1, 1), (0, -1), (0, 1), (1, -1), (1, 0), (1, 1)]

/-- The 8 neighbor offsets in the row-major order used by the Free(0)
branch of solve_board. -/
def floodOffsets : List (Int × Int) :=
  [(-1, -1), (0, -1), (1, -1), (-1, 0), (1, 0), (-1, 1), (0, 1), (1, 1)]

/-! ## Deduction solver (gen.rs, Game::solve_board) -/

/-- The batch of 8 hint_hidden_field calls in rule A of solve_board. -/
def Game.hint_all (g : Game) (x y : Int) : Game :=
  sweepOffsets.foldl (fun b d => b.hint_hidden_field (x + d.1) (y + d.2)) g

/-- Sequential ?-chained recursive solve_board calls over a list of
neighbor offsets, parameterized by the recursive callee. -/
def solve_seq (sb : Game → Int → Int → Bool → Option (Except Error Game))
    (x y : Int) : Game → List (Int × Int) → Option (Except Error Game)
  | g, [] => some (.ok g)
  | g, d :: rest =>
    match sb g (x + d.1) (y + d.2) false with
    | none => none
    | some (.error e) => some (.error e)
    | some (.ok g2) => solve_seq sb x y g2 rest

/-- The `match field.state` part of solve_board (after the visibility
dispatch), parameterized by the recursive callee. -/
def solve_state (sb : Game → Int → Int → Bool → Option (Except Error Game))
    (g : Game) (x y : Int) : Option (Except Error Game) :=
  match (g.get x y).state with
  | .Free 0 => solve_seq sb x y g floodOffsets
  | .Free (m + 1) =>
    let neighbors := m + 1
    let hidden := g.hidden_adjacents x y
    let hinted := g.hinted_adjacents x y
    let num_missing := sub8 neighbors hinted.num
    let g1 := if num_missing = hidden.num then g.hint_all x y else g
    let hinted2 := g1.hinted_adjacents x y
    if neighbors = hinted2.num then solve_seq sb x y g1 sweepOffsets
    else some (.ok g1)
  | .Mine => some (.error .Invalid)

/-- Game::solve_board (gen.rs), fuel bounding the recursion depth. -/
def Game.solve_board : Nat → Game → Int → Int → Bool → Option (Except Error Game)
  | 0, _, _, _, _ => none
  | fuel + 1, g, x, y, force =>
    if ¬ g.is_in_bounds x y then some (.ok g)
    else
      let field := g.get x y
      match field.visibility with
      | .Hide =>
        if field.state = .Mine then some (.error .Invalid)
        else solve_state (Game.solve_board fuel) (g.set x y { field with visibility := .Show }) x y
      | .Hint => some (.ok g)
      | .Show =>
        if force then solve_state (Game.solve_board fuel) g x y
        else some (.ok g)

/-! ## Flood-fill reveal (lib.rs, Game::show_neighbors) -/

/-- Sequential recursive show_neighbors calls over a list of neighbor
offsets, parameterized by the recursive callee. -/
def show_seq (sn : Game → Int → Int → Option Game) (x y : Int) :
    Game → List (Int × Int) → Option Game
  | g, [] => some g
  | g, d :: rest =>
    match sn g (x + d.1) (y + d.2) with
    | none => none
    | some g2 => show_seq sn x y g2 rest

/-- Game::show_neighbors (lib.rs), fuel bounding the recursion depth. -/
def Game.show_neighbors : Nat → Game → Int → Int → Option Game
  | 0, _, _, _ => none
  | fuel + 1, g, x, y =>
    if ¬ g.is_in_bounds x y then some g
    else
      let field := g.get x y
      if field.visibility = .Show then some g
      else
        let g1 := g.set x y { field with visibility := .Show }
        if field.state ≠ .Free 0 then some g1
        else show_seq (Game.show_neighbors fuel) x y g1 sweepOffsets

/-! ## Ambiguity / validity search (gen.rs, Game::guess_mines) -/

/-- One `(x, y, num_missing_neighbors, adjacents)` entry of the
possible_fields vector of guess_mines. -/
structure Cand where
  x : Int
  y : Int
  num_missing : Nat
  adj : Adjacents
deriving DecidableEq, Repr

/-- The per-cell candidate test of the scan loop of guess_mines. -/
def cand_at (g : Game) (x y : Int) : Option Cand :=
  let field := g.get x y
  if field.visibility = .Show then
    match field.state with
    | .Free neighbors =>
      let hidden := g.hidden_adjacents x y
      let hinted := g.hinted_adjacents x y
      let num_missing := sub8 neighbors hinted.num
      if 0 < num_missing ∧ num_missing < hidden.num then
        some ⟨x, y, num_missing, hidden⟩
      else none
    | .Mine => none
  else none

/-- The Int range [s, e) as a list, the iteration order of `for v in s..e`. -/
def intRange (s e : Int) : List Int :=
  (List.range (e - s).toNat).map (fun (i : Nat) => s + (i : Int))

/-- The possible_fields scan of guess_mines (row by row, left to right). -/
def possible_fields (g : Game) (x_s x_e y_s y_e : Int) : List Cand :=
  (intRange y_s y_e).flatMap (fun y => (intRange x_s x_e).filterMap (fun x => cand_at g x y))

/-- The sort_unstable_by comparator of guess_mines as a ≤ test:
(hidden_count - missing) ascending, ties broken by missing ascending. -/
def cand_le (c1 c2 : Cand) : Bool :=
  let k1 := sub8 c1.adj.num c1.num_missing
  let k2 := sub8 c2.adj.num c2.num_missing
  decide (k1 < k2) || (decide (k1 = k2) && decide (c1.num_missing ≤ c2.num_missing))

/-- The sorting step of guess_mines (sort_unstable_by with the same
comparator; the algorithm itself is unspecified, any comparator-sorted
permutation is a faithful model). -/
def sort_cands (l : List Cand) : List Cand :=
  List.insertionSort (fun c1 c2 => cand_le c1 c2 = true) l

/-- Marking one hypothesis: the chosen hidden neighbors become Hint. -/
def apply_mask (g : Game) (x y : Int) (offsets : List (Int × Int)) (mask : List Bool) : Game :=
  (offsets.zip mask).foldl
    (fun b p =>
      if p.2 then
        b.set (x + p.1.1) (y + p.1.2) { b.get (x + p.1.1) (y + p.1.2) with visibility := .Hint }
      else b)
    g

/-- The radius-2 local consistency re-check of guess_mines: some shown
Free cell near the candidate now has more hints than neighbors. -/
def local_check_fails (b : Game) (x y : Int) : Bool :=
  let x_s := max (x - 2) 0
  let x_e := min (x + 3) b.width
  let y_s := max (y - 2) 0
  let y_e := min (y + 3) b.height
  (intRange y_s y_e).any fun fy =>
    (intRange x_s x_e).any fun fx =>
      let field := b.get fx fy
      decide (field.visibility = .Show) &&
        match field.state with
        | .Free neighbors => decide (neighbors < (b.hinted_adjacents fx fy).num)
        | .Mine => false

/-- The board-wide check of guess_mines when no open mines remain: some
shown Free cell still has fewer hints than neighbors. -/
def global_check_fails (b : Game) : Bool :=
  (intRange 0 b.height).any fun y =>
    (intRange 0 b.width).any fun x =>
      if ¬ b.is_in_bounds x y then false
      else
        let field := b.get x y
        decide (field.visibility = .Show) &&
          match field.state with
          | .Free neighbors => decide ((b.hinted_adjacents x y).num < neighbors)
          | .Mine => false

/-- Outcome of testing one combination (hypothesis) in guess_mines. -/
inductive HypResult where
  | discard
  | done
  | survive (b : Game)
deriving DecidableEq, Repr

deriving instance DecidableEq for Except

/-- Outcome of the whole combination loop for one candidate cell. -/
inductive CandResult where
  | retEarly (r : Except Error Solve)
  | ambig
  | noValid
deriving DecidableEq, Repr

/-- Testing one hypothesis mask for a candidate cell: mark the chosen
neighbors, run the local / global checks, and recurse when mines remain;
parameterized by the recursive guess_mines callee. -/
def eval_hyp (gm : Game → Int → Int → Int → Int → Nat → Option (Except Error Solve))
    (g : Game) (c : Cand) (dep : Nat) (mask : List Bool) : Option HypResult :=
  let board := apply_mask g c.x c.y c.adj.offsets mask
  if local_check_fails board c.x c.y then some .discard
  else if board.open_mine_count = 0 then
    if global_check_fails board then some .discard else some (.survive board)
  else
    let x_s := max (c.x - 3) 0
    let x_e := min (c.x + 4) board.width
    let y_s := max (c.y - 3) 0
    let y_e := min (c.y + 4) board.height
    match gm board x_s x_e y_s y_e (dep + 1) with
    | none => none
    | some (.error .Invalid) => some .discard
    | some (.error .Ambigous) => some (.survive board)
    | some (.ok .Done) => some .done
    | some (.ok (.Progress b)) => some (.survive b)
    | some (.ok .NoMissingNeighbors) => some (.survive board)

/-- The combination loop of guess_mines for one candidate cell, carrying
the optional first surviving board (valid_board). -/
def comb_loop (gm : Game → Int → Int → Int → Int → Nat → Option (Except Error Solve))
    (g : Game) (c : Cand) (dep : Nat) :
    List (List Bool) → Option Game → Option CandResult
  | [], none => some .noValid
  | [], some vb =>
    some (.retEarly (if vb.is_solved then .ok .Done else .ok (.Progress vb)))
  | mask :: rest, vb? =>
    match eval_hyp gm g c dep mask with
    | none => none
    | some .discard => comb_loop gm g c dep rest vb?
    | some .done => some (.retEarly (.ok .Done))
    | some (.survive b) =>
      match vb? with
      | none => comb_loop gm g c dep rest (some b)
      | some _ => some .ambig

/-- Processing one candidate cell of the guessing loop: the open mine
count guard, then the combination loop over all hypothesis masks. -/
def process_cand (gm : Game → Int → Int → Int → Int → Nat → Option (Except Error Solve))
    (g : Game) (dep : Nat) (c : Cand) : Option CandResult :=
  if g.open_mine_count < (c.num_missing : Int) then some (.retEarly (.error .Invalid))
  else comb_loop gm g c dep (comb_masks c.adj.num c.num_missing) none

/-- The labelled guessing loop of guess_mines over the sorted candidate
list, counting candidates found ambiguous. -/
def guess_loop (gm : Game → Int → Int → Int → Int → Nat → Option (Except Error Solve))
    (g : Game) (dep : Nat) : List Cand → Nat → Option (Except Error Solve)
  | [], num_ambigous =>
    some (.error (if 0 < num_ambigous then .Ambigous else .Invalid))
  | c :: rest, num_ambigous =>
    match process_cand gm g dep c with
    | none => none
    | some (.retEarly r) => some r
    | some .ambig => guess_loop gm g dep rest (num_ambigous + 1)
    | some .noValid => guess_loop gm g dep rest num_ambigous

/-- Game::guess_mines (gen.rs), fuel bounding the recursion depth. -/
def Game.guess_mines : Nat → Game → Int → Int → Int → Int → Nat → Option (Except Error Solve)
  | 0, _, _, _, _, _, _ => none
  | fuel + 1, g, x_s, x_e, y_s, y_e, dep =>
    let pf := possible_fields g x_s x_e y_s y_e
    if pf.isEmpty then some (.ok .NoMissingNeighbors)
    else guess_loop (Game.guess_mines fuel) g dep (sort_cands pf) 0

/-! ## Board validation (gen.rs, Game::validate_board) -/

/-- Result of one pass of the inner fixpoint loop of validate_board. -/
inductive PassRes where
  | err (e : Error)
  | solvedSg
  | cont (g : Game)
deriving DecidableEq, Repr

/-- All board coordinates in the `for y { for x { .. } }` scan order. -/
def all_coords (g : Game) : List (Int × Int) :=
  (intRange 0 g.height).flatMap (fun y => (intRange 0 g.width).map (fun x => (x, y)))

/-- One pass of the inner loop of validate_board: re-run solve_board on
every shown cell, with the early solved return after each. -/
def pass_cells (sb : Game → Int → Int → Bool → Option (Except Error Game)) :
    Game → List (Int × Int) → Option PassRes
  | g, [] => some (.cont g)
  | g, p :: rest =>
    if (g.get p.1 p.2).visibility = .Show then
      match sb g p.1 p.2 true with
      | none => none
      | some (.error e) => some (.err e)
      | some (.ok g2) => if g2.is_solved then some .solvedSg else pass_cells sb g2 rest
    else pass_cells sb g rest

/-- The inner fixpoint loop of validate_board: repeat passes until a
pass leaves the board unchanged. -/
def fix_loop (sb : Game → Int → Int → Bool → Option (Except Error Game)) :
    Nat → Game → Game → Option PassRes
  | 0, _, _ => none
  | fuel + 1, copy, board =>
    match pass_cells sb board (all_coords board) with
    | none => none
    | some (.err e) => some (.err e)
    | some .solvedSg => some .solvedSg
    | some (.cont b) => if copy = b then some (.cont b) else fix_loop sb fuel b b

/-- Game::validate_board (gen.rs): the outer loop alternating the
deduction fixpoint with the guessing search. -/
def Game.validate_board : Nat → Game → Int → Int → Option (Except Error Unit)
  | 0, _, _, _ => none
  | fuel + 1, g, x, y =>
    match Game.solve_board (fuel + 1) g x y true with
    | none => none
    | some (.error e) => some (.error e)
    | some (.ok b1) =>
      if b1.is_solved then some (.ok ())
      else
        match fix_loop (Game.solve_board (fuel + 1)) (fuel + 1) b1 b1 with
        | none => none
        | some (.err e) => some (.error e)
        | some .solvedSg => some (.ok ())
        | some (.cont b2) =>
          match Game.guess_mines (fuel + 1) b2 0 b2.width 0 b2.height 0 with
          | none => none
          | some (.error e) => some (.error e)
          | some (.ok .Done) => some (.ok ())
          | some (.ok (.Progress b3)) => Game.validate_board fuel b3 x y
          | some (.ok .NoMissingNeighbors) => some (.error .Ambigous)

/-! ## Board construction for the concrete scenarios (gen/test.rs) -/

/-- A w × h board with the given target mine count and all fields
hidden and Free(0) (Game::new before mine placement). -/
def mk_empty (w h : Int) (nm : Nat) : Game :=
  { num_mines := nm
    width := w
    height := h
    fields := List.replicate (w * h).toNat default }

/-- place_mine of gen/test.rs: set one field to Mine and increment the
neighbor counts of the 8 surrounding fields. -/
def place_mine (g : Game) (x y : Int) : Game :=
  let g1 := g.set x y { g.get x y with state := .Mine }
  sweepOffsets.foldl (fun b d => b.increment_field (x + d.1) (y + d.2)) g1

/-- The solvable_board_1 scenario: 5 × 5, mines at (2,2) and (2,3). -/
def board_1 : Game :=
  place_mine (place_mine (mk_empty 5 5 2) 2 2) 2 3

/-! ## Basic board lemmas -/

/-- Well-formedness: the field vector has exactly width * height entries. -/
def Game.wf (g : Game) : Prop :=
  g.fields.length = (g.width * g.height).toNat

instance (g : Game) : Decidable g.wf := by
  unfold Game.wf
  infer_instance

theorem is_in_bounds_iff {g : Game} {x y : Int} :
    g.is_in_bounds x y = true ↔ 0 ≤ x ∧ x < g.width ∧ 0 ≤ y ∧ y < g.height := by
  simp [Game.is_in_bounds, and_assoc]

theorem idx_nonneg {g : Game} {x y : Int} (h : g.is_in_bounds x y = true) :
    0 ≤ g.width * y + x := by
  obtain ⟨hx0, hxw, hy0, _⟩ := is_in_bounds_iff.1 h
  have hw : 0 ≤ g.width := le_trans hx0 (le_of_lt hxw)
  have := mul_nonneg hw hy0
  linarith

theorem idx_lt {g : Game} {x y : Int} (hwf : g.wf) (h : g.is_in_bounds x y = true) :
    (g.width * y + x).toNat < g.fields.length := by
  obtain ⟨hx0, hxw, hy0, hyh⟩ := is_in_bounds_iff.1 h
  have hw : 0 < g.width := lt_of_le_of_lt hx0 hxw
  have hstep : g.width * (y + 1) ≤ g.width * g.height :=
    mul_le_mul_of_nonneg_left (by linarith) (le_of_lt hw)
  have h1 : g.width * y + x < g.width * g.height := by
    have : g.width * (y + 1) = g.width * y + g.width := by ring
    linarith [this ▸ hstep]
  have h2 : (0 : Int) < g.width * g.height := by
    have := idx_nonneg h
    linarith
  rw [hwf]
  exact (Int.toNat_lt_toNat h2).2 h1

theorem idx_inj {g : Game} {x y p q : Int} (hxy : g.is_in_bounds x y = true)
    (hpq : g.is_in_bounds p q = true)
    (h : (g.width * y + x).toNat = (g.width * q + p).toNat) : x = p ∧ y = q := by
  obtain ⟨hx0, hxw, hy0, hyh⟩ := is_in_bounds_iff.1 hxy
  obtain ⟨hp0, hpw, hq0, hqh⟩ := is_in_bounds_iff.1 hpq
  have hw : 0 < g.width := lt_of_le_of_lt hx0 hxw
  have e : g.width * y + x = g.width * q + p := by
    have h2 := congrArg (fun n : Nat => (n : Int)) h
    simpa [Int.toNat_of_nonneg (idx_nonneg hxy), Int.toNat_of_nonneg (idx_nonneg hpq)] using h2
  have ex : x = p := by
    have m1 : (g.width * y + x) % g.width = x := by
      rw [add_comm, Int.add_mul_emod_self_left, Int.emod_eq_of_lt hx0 hxw]
    have m2 : (g.width * q + p) % g.width = p := by
      rw [add_comm, Int.add_mul_emod_self_left, Int.emod_eq_of_lt hp0 hpw]
    rw [e, m2] at m1
    exact m1.symm
  refine ⟨ex, ?_⟩
  have : g.width * y = g.width * q := by
    rw [ex] at e
    linarith
  exact mul_left_cancel₀ (ne_of_gt hw) this

theorem getD_set_self (l : List Field) (i : Nat) (a d : Field) :
    (l.set i a).getD i d = if i < l.length then a else d := by
  rw [List.getD_eq_getElem?_getD, List.getElem?_set]
  by_cases h : i < l.length <;> simp [h]

theorem getD_set_ne (l : List Field) {i j : Nat} (h : i ≠ j) (a d : Field) :
    (l.set i a).getD j d = l.getD j d := by
  rw [List.getD_eq_getElem?_getD, List.getElem?_set, if_neg h, ← List.getD_eq_getElem?_getD]

theorem set_getD_self (l : List Field) {i : Nat} (h : i < l.length) (d : Field) :
    l.set i (l.getD i d) = l := by
  rw [List.getD_eq_getElem l d h]
  apply List.ext_getElem?
  intro j
  rw [List.getElem?_set]
  split
  · rename_i hij
    subst hij
    simp [h]
  · rfl

theorem get_set_self {g : Game} {x y : Int} (hwf : g.wf) (h : g.is_in_bounds x y = true)
    (f : Field) : (g.set x y f).get x y = f := by
  unfold Game.get Game.set
  simp only []
  rw [getD_set_self]
  simp [idx_lt hwf h]

theorem get_set_ne {g : Game} {x y p q : Int} (hxy : g.is_in_bounds x y = true)
    (hpq : g.is_in_bounds p q = true) (hne : ¬(p = x ∧ q = y)) (f : Field) :
    (g.set x y f).get p q = g.get p q := by
  unfold Game.get Game.set
  simp only []
  apply getD_set_ne
  intro hidx
  exact hne ⟨(idx_inj hxy hpq hidx).1.symm, (idx_inj hxy hpq hidx).2.symm⟩

theorem set_width (g : Game) (x y : Int) (f : Field) : (g.set x y f).width = g.width := rfl
theorem set_height (g : Game) (x y : Int) (f : Field) : (g.set x y f).height = g.height := rfl
theorem set_num_mines (g : Game) (x y : Int) (f : Field) :
    (g.set x y f).num_mines = g.num_mines := rfl
theorem set_length (g : Game) (x y : Int) (f : Field) :
    (g.set x y f).fields.length = g.fields.length := List.length_set ..

theorem set_is_in_bounds (g : Game) (x y p q : Int) (f : Field) :
    (g.set x y f).is_in_bounds p q = g.is_in_bounds p q := rfl

theorem set_wf {g : Game} (x y : Int) (f : Field) (hwf : g.wf) : (g.set x y f).wf := by
  unfold Game.wf at *
  rw [set_length, set_width, set_height]
  exact hwf

theorem field_eta {f : Field} {v : Visibility} (h : f.visibility = v) :
    ({ f with visibility := v } : Field) = f := by
  cases f
  cases h
  rfl

theorem game_get_set (g : Game) (x y : Int) (f : Field) :
    (g.set x y f).get x y
      = if (g.width * y + x).toNat < g.fields.length then f else default :=
  getD_set_self ..

theorem game_set_set (g : Game) (x y : Int) (f1 f2 : Field) :
    (g.set x y f1).set x y f2 = g.set x y f2 := by
  show ({ g with
    fields := (g.fields.set (g.width * y + x).toNat f1).set (g.width * y + x).toNat f2 } : Game)
      = _
  rw [List.set_set]
  rfl

theorem game_set_get_self (g : Game) (x y : Int) (f : Field) (h : f = g.get x y) :
    g.set x y f = g := by
  subst h
  unfold Game.set Game.get
  by_cases hlen : (g.width * y + x).toNat < g.fields.length
  · rw [set_getD_self g.fields hlen]
  · rw [List.set_eq_of_length_le (le_of_not_lt hlen)]

theorem game_set_oob (g : Game) (x y : Int) (f : Field)
    (h : ¬ (g.width * y + x).toNat < g.fields.length) : g.set x y f = g := by
  unfold Game.set
  rw [List.set_eq_of_length_le (le_of_not_lt h)]

/-! ## C1: the combination enumerator -/

/-- C1 (code bug): CombinationIter does not enumerate every size-k
subset: for n = 4, k = 3 it terminates after 3 of the C(4,3) = 4 masks,
never yielding the subset 1,2,3; and for k = 0 the increment
loop body never runs, so stop is never set and the iterator yields the
empty mask forever (three yields in three steps) instead of exactly once. -/
theorem C1_combination_iter_bug :
    (comb_masks 4 3).length = 3 ∧ Nat.choose 4 3 = 4 ∧
    [false, true, true, true, false, false, false, false] ∉ comb_masks 4 3 ∧
    ((CombinationIter.new 1 0).toList 3).length = 3 := by decide

/-! ## C8: adjacency offsets order -/

/-- The compass enumeration order of the spec: bitmask with its
(dx, dy) offset, NW, N, NE, E, SE, S, SW, W. -/
def compassOrder : List (Nat × Int × Int) :=
  [(Adjacents.NW, -1, -1), (Adjacents.N, 0, -1), (Adjacents.NE, 1, -1),
   (Adjacents.E, 1, 0), (Adjacents.SE, 1, 1), (Adjacents.S, 0, 1),
   (Adjacents.SW, -1, 1), (Adjacents.W, -1, 0)]

theorem adjacents_fin_aux : ∀ v : Fin 256,
    (Adjacents.mk v.1).offsets
      = (compassOrder.filter (fun p => decide (v.1 &&& p.1 ≠ 0))).map (fun p => p.2) ∧
    (Adjacents.mk v.1).num
      = (compassOrder.filter (fun p => decide (v.1 &&& p.1 ≠ 0))).length := by decide

/-- C8: for every Adjacents value (an 8-bit mask), offsets() lists the
(dx, dy) offsets of exactly the set bits, in the fixed compass order
NW, N, NE, E, SE, S, SW, W (so the i-th offset is the i-th set bit in
that order), and num() equals the number of set bits. -/
theorem C8_adjacents_offsets_order (a : Adjacents) (h : a.val < 256) :
    a.offsets
      = (compassOrder.filter (fun p => decide (a.val &&& p.1 ≠ 0))).map (fun p => p.2) ∧
    a.num = (compassOrder.filter (fun p => decide (a.val &&& p.1 ≠ 0))).length := by
  obtain ⟨v⟩ := a
  exact adjacents_fin_aux ⟨v, h⟩

/-- Witness for C8 at the concrete mask 0x05 = NW and NE set. -/
theorem C8_witness :
    (Adjacents.mk 5).offsets
      = (compassOrder.filter
          (fun p => decide ((Adjacents.mk 5).val &&& p.1 ≠ 0))).map (fun p => p.2) ∧
    (Adjacents.mk 5).num
      = (compassOrder.filter (fun p => decide ((Adjacents.mk 5).val &&& p.1 ≠ 0))).length :=
  C8_adjacents_offsets_order ⟨5⟩ (by decide)

/-! ## C10: the hint toggle -/

theorem hint_invol (g : Game) (x y : Int) : (g.hint_ x y).hint_ x y = g := by
  by_cases hb : g.is_in_bounds x y = true
  case neg =>
    have e0 : g.hint_ x y = g := by
      unfold Game.hint_
      simp [hb]
    rw [e0, e0]
  case pos =>
    cases hv : (g.get x y).visibility with
    | Show =>
      have e1 : g.hint_ x y = g := by
        unfold Game.hint_
        simp [hb, hv]
      rw [e1, e1]
    | Hint =>
      have e1 : g.hint_ x y = g.set x y { g.get x y with visibility := .Hide } := by
        unfold Game.hint_
        simp [hb, hv]
      by_cases hlen : (g.width * y + x).toNat < g.fields.length
      · have e2 : (g.hint_ x y).get x y = { g.get x y with visibility := .Hide } := by
          rw [e1, game_get_set, if_pos hlen]
        rw [e1]
        have e3 : (g.set x y { g.get x y with visibility := .Hide }).hint_ x y
            = (g.set x y { g.get x y with visibility := .Hide }).set x y
                { g.get x y with visibility := .Hint } := by
          unfold Game.hint_
          rw [← e1]
          simp only [e1] at *
          simp [set_is_in_bounds, hb, game_get_set, hlen]
        rw [e3, game_set_set]
        exact game_set_get_self _ _ _ _ (field_eta hv)
      · rw [e1, game_set_oob _ _ _ _ hlen, e1, game_set_oob _ _ _ _ hlen]
    | Hide =>
      have e1 : g.hint_ x y = g.set x y { g.get x y with visibility := .Hint } := by
        unfold Game.hint_
        simp [hb, hv]
      by_cases hlen : (g.width * y + x).toNat < g.fields.length
      · rw [e1]
        have e3 : (g.set x y { g.get x y with visibility := .Hint }).hint_ x y
            = (g.set x y { g.get x y with visibility := .Hint }).set x y
                { g.get x y with visibility := .Hide } := by
          unfold Game.hint_
          simp [set_is_in_bounds, hb, game_get_set, hlen]
        rw [e3, game_set_set]
        exact game_set_get_self _ _ _ _ (field_eta hv)
      · rw [e1, game_set_oob _ _ _ _ hlen, e1, game_set_oob _ _ _ _ hlen]

/-- C10: toggling a hint twice restores the board exactly; a single
call maps Hide to Hint and Hint to Hide at the target cell, leaves a
Show cell alone, is a no-op out of bounds, and changes no other cell. -/
theorem C10_hint_toggle (g : Game) (x y : Int) :
    (g.hint_ x y).hint_ x y = g ∧
    (¬ g.is_in_bounds x y = true → g.hint_ x y = g) ∧
    (g.wf → g.is_in_bounds x y = true →
      ((g.get x y).visibility = .Hide →
        (g.hint_ x y).get x y = { g.get x y with visibility := .Hint }) ∧
      ((g.get x y).visibility = .Hint →
        (g.hint_ x y).get x y = { g.get x y with visibility := .Hide }) ∧
      ((g.get x y).visibility = .Show → g.hint_ x y = g) ∧
      (∀ p q, g.is_in_bounds p q = true → ¬(p = x ∧ q = y) →
        (g.hint_ x y).get p q = g.get p q)) := by
  refine ⟨hint_invol g x y, ?_, ?_⟩
  · intro h
    unfold Game.hint_
    simp [h]
  · intro hwf hb
    refine ⟨?_, ?_, ?_, ?_⟩
    · intro hv
      have e1 : g.hint_ x y = g.set x y { g.get x y with visibility := .Hint } := by
        unfold Game.hint_
        simp [hb, hv]
      rw [e1, get_set_self hwf hb]
    · intro hv
      have e1 : g.hint_ x y = g.set x y { g.get x y with visibility := .Hide } := by
        unfold Game.hint_
        simp [hb, hv]
      rw [e1, get_set_self hwf hb]
    · intro hv
      unfold Game.hint_
      simp [hb, hv]
    · intro p q hpq hne
      cases hv : (g.get x y).visibility with
      | Hide =>
        have e1 : g.hint_ x y = g.set x y { g.get x y with visibility := .Hint } := by
          unfold Game.hint_
          simp [hb, hv]
        rw [e1]
        exact get_set_ne hb hpq hne _
      | Hint =>
        have e1 : g.hint_ x y = g.set x y { g.get x y with visibility := .Hide } := by
          unfold Game.hint_
          simp [hb, hv]
        rw [e1]
        exact get_set_ne hb hpq hne _
      | Show =>
        have e1 : g.hint_ x y = g := by
          unfold Game.hint_
          simp [hb, hv]
        rw [e1]

/-- Witness for C10 on a concrete 2 × 1 board at (0, 0). -/
theorem C10_witness :
    ((mk_empty 2 1 0).hint_ 0 0).hint_ 0 0 = mk_empty 2 1 0 ∧
    ((mk_empty 2 1 0).hint_ 0 0).get 0 0
      = { (mk_empty 2 1 0).get 0 0 with visibility := .Hint } ∧
    ((mk_empty 2 1 0).hint_ 0 0).get 1 0 = (mk_empty 2 1 0).get 1 0 := by
  have h := C10_hint_toggle (mk_empty 2 1 0) 0 0
  refine ⟨h.1, ?_, ?_⟩
  · exact (h.2.2 (by decide) (by decide)).1 (by decide)
  · exact (h.2.2 (by decide) (by decide)).2.2.2 1 0 (by decide) (by decide)

/-! ## C7: the solvable 5 × 5 scenario -/

/-- Spec-side consistency check: every Free field carries exactly the
number of Mine cells among its in-bounds neighbors. -/
def mines_consistent (g : Game) : Bool :=
  (all_coords g).all fun p =>
    match (g.get p.1 p.2).state with
    | .Free n =>
      n = (sweepOffsets.filter (fun d =>
        g.is_in_bounds (p.1 + d.1) (p.2 + d.2) &&
          decide ((g.get (p.1 + d.1) (p.2 + d.2)).state = .Mine))).length
    | .Mine => true

/-- C7: the 5 × 5 board whose only mines are at (2,2) and (2,3), with
correctly computed neighbor counts and every cell hidden, is certified
solvable from (0,0): validate_board returns Ok. -/
theorem C7_validate_board_1 :
    mines_consistent board_1 = true ∧
    board_1.fields.countP (fun f => decide (f.state = FieldState.Mine)) = board_1.num_mines ∧
    (board_1.get 2 2).state = .Mine ∧
    (board_1.get 2 3).state = .Mine ∧
    (∀ f ∈ board_1.fields, f.visibility = .Hide) ∧
    Game.validate_board 40 board_1 0 0 = some (Except.ok ()) := by
  refine ⟨by decide, by decide, by decide, by decide, by decide, by rfl⟩

/-! ## C5: revealing a mine during deduction -/

theorem solve_board_hidden_mine {g : Game} {x y : Int} (f : Nat) (force : Bool)
    (hb : g.is_in_bounds x y = true) (hv : (g.get x y).visibility = .Hide)
    (hs : (g.get x y).state = .Mine) :
    Game.solve_board (f + 1) g x y force = some (.error .Invalid) := by
  unfold Game.solve_board
  simp [hb, hv, hs]

theorem solve_board_shown_mine {g : Game} {x y : Int} (f : Nat)
    (hb : g.is_in_bounds x y = true) (hv : (g.get x y).visibility = .Show)
    (hs : (g.get x y).state = .Mine) :
    Game.solve_board (f + 1) g x y true = some (.error .Invalid) := by
  unfold Game.solve_board
  simp only [hb, not_true_eq_false, if_false, Bool.not_eq_true]
  rw [hv]
  unfold solve_state
  simp [hs]

theorem validate_board_hidden_mine {g : Game} {x y : Int} (f : Nat)
    (hb : g.is_in_bounds x y = true) (hv : (g.get x y).visibility = .Hide)
    (hs : (g.get x y).state = .Mine) :
    Game.validate_board (f + 1) g x y = some (.error .Invalid) := by
  unfold Game.validate_board
  rw [solve_board_hidden_mine f true hb hv hs]

/-- C5: when the deduction pass reaches an in-bounds Mine cell that is
not hinted — a hidden mine it is about to reveal, or a force-revealed
shown mine — solve_board returns Invalid, and for the hidden-mine start
cell the error propagates so validate_board reports Invalid. -/
theorem C5_solve_board_mine_invalid {g : Game} {x y : Int} (f : Nat)
    (hb : g.is_in_bounds x y = true) (hs : (g.get x y).state = .Mine) :
    ((g.get x y).visibility = .Hide →
      (∀ force, Game.solve_board (f + 1) g x y force = some (.error .Invalid)) ∧
      Game.validate_board (f + 1) g x y = some (.error .Invalid)) ∧
    ((g.get x y).visibility = .Show →
      Game.solve_board (f + 1) g x y true = some (.error .Invalid)) := by
  constructor
  · intro hv
    exact ⟨fun force => solve_board_hidden_mine f force hb hv hs,
      validate_board_hidden_mine f hb hv hs⟩
  · intro hv
    exact solve_board_shown_mine f hb hv hs

/-- Witness for C5 on the 1 × 1 board holding one hidden mine. -/
theorem C5_witness :
    Game.solve_board 1 (place_mine (mk_empty 1 1 1) 0 0) 0 0 true
      = some (.error .Invalid) ∧
    Game.validate_board 1 (place_mine (mk_empty 1 1 1) 0 0) 0 0
      = some (.error .Invalid) := by
  have h := (C5_solve_board_mine_invalid (g := place_mine (mk_empty 1 1 1) 0 0)
    (x := 0) (y := 0) 0 (by decide) (by decide)).1 (by decide)
  exact ⟨h.1 true, h.2⟩

/-! ## C4: rule A of the deduction pass -/

theorem hint_hidden_field_eq (g : Game) (p q : Int) :
    g.hint_hidden_field p q =
      if g.is_in_bounds p q = true ∧ (g.get p q).visibility = .Hide
      then g.set p q { g.get p q with visibility := .Hint }
      else g := by
  unfold Game.hint_hidden_field
  by_cases h1 : g.is_in_bounds p q = true
  · by_cases h2 : (g.get p q).visibility = .Hide
    · simp [h1, h2]
    · simp [h1, h2]
  · simp [h1]

/-- The fold of hint_hidden_field calls over a list of offsets; hint_all
is this fold over sweepOffsets. -/
def hint_list (g : Game) (x y : Int) (offs : List (Int × Int)) : Game :=
  offs.foldl (fun b d => b.hint_hidden_field (x + d.1) (y + d.2)) g

theorem hint_all_eq_hint_list (g : Game) (x y : Int) :
    g.hint_all x y = hint_list g x y sweepOffsets := rfl

theorem hint_list_dims (g : Game) (x y : Int) (offs : List (Int × Int)) :
    (hint_list g x y offs).width = g.width ∧
    (hint_list g x y offs).height = g.height ∧
    (hint_list g x y offs).fields.length = g.fields.length ∧
    (hint_list g x y offs).num_mines = g.num_mines := by
  induction offs generalizing g with
  | nil => exact ⟨rfl, rfl, rfl, rfl⟩
  | cons d rest ih =>
    have hstep : hint_list g x y (d :: rest)
        = hint_list (g.hint_hidden_field (x + d.1) (y + d.2)) x y rest := rfl
    rw [hstep, hint_hidden_field_eq]
    by_cases hcond : g.is_in_bounds (x + d.1) (y + d.2) = true ∧
        (g.get (x + d.1) (y + d.2)).visibility = .Hide
    · rw [if_pos hcond]
      obtain ⟨i1, i2, i3, i4⟩ := ih (g.set (x + d.1) (y + d.2)
        { g.get (x + d.1) (y + d.2) with visibility := .Hint })
      exact ⟨i1, i2, i3.trans (set_length ..), i4⟩
    · rw [if_neg hcond]
      exact ih g

theorem hint_list_wf {g : Game} (x y : Int) (offs : List (Int × Int)) (hwf : g.wf) :
    (hint_list g x y offs).wf := by
  obtain ⟨h1, h2, h3, _⟩ := hint_list_dims g x y offs
  unfold Game.wf at *
  rw [h1, h2, h3, hwf]

theorem hint_list_is_in_bounds (g : Game) (x y : Int) (offs : List (Int × Int)) (u v : Int) :
    (hint_list g x y offs).is_in_bounds u v = g.is_in_bounds u v := by
  obtain ⟨h1, h2, _, _⟩ := hint_list_dims g x y offs
  unfold Game.is_in_bounds
  rw [h1, h2]

theorem hint_list_get (g : Game) (x y : Int) (offs : List (Int × Int)) (hwf : g.wf)
    (hnd : offs.Nodup) (u v : Int) (hb : g.is_in_bounds u v = true) :
    (hint_list g x y offs).get u v =
      if (u - x, v - y) ∈ offs ∧ (g.get u v).visibility = .Hide
      then { g.get u v with visibility := .Hint }
      else g.get u v := by
  induction offs generalizing g with
  | nil => simp [hint_list]
  | cons d rest ih =>
    have hstep : hint_list g x y (d :: rest)
        = hint_list (g.hint_hidden_field (x + d.1) (y + d.2)) x y rest := rfl
    have hnd_rest : rest.Nodup := (List.nodup_cons.1 hnd).2
    have hd_not : d ∉ rest := (List.nodup_cons.1 hnd).1
    rw [hstep, hint_hidden_field_eq]
    by_cases hc : (u - x, v - y) = d
    · -- the target of the head call is exactly (u, v)
      have hu : x + d.1 = u := by
        have h1 : d.1 = u - x := by rw [← hc]
        omega
      have hv : y + d.2 = v := by
        have h2 : d.2 = v - y := by rw [← hc]
        omega
      have hmem : (u - x, v - y) ∈ d :: rest := by
        rw [hc]
        exact List.mem_cons_self d rest
      have hnotmem : (u - x, v - y) ∉ rest := by
        rw [hc]
        exact hd_not
      rw [hu, hv]
      by_cases hvis : (g.get u v).visibility = .Hide
      · rw [if_pos ⟨hb, hvis⟩,
          ih _ (set_wf _ _ _ hwf) hnd_rest hb]
        rw [get_set_self hwf hb]
        simp [hnotmem, hmem, hvis]
      · rw [if_neg (fun hcon => hvis hcon.2), ih g hwf hnd_rest hb]
        simp [hnotmem, hvis]
    · -- the head call targets a different cell
      have hmem_iff : ((u - x, v - y) ∈ d :: rest) ↔ ((u - x, v - y) ∈ rest) := by
        simp [List.mem_cons, hc]
      have hne : ¬ (u = x + d.1 ∧ v = y + d.2) := by
        rintro ⟨h1, h2⟩
        apply hc
        cases d
        simp only [Prod.mk.injEq]
        omega
      by_cases hcond : g.is_in_bounds (x + d.1) (y + d.2) = true ∧
          (g.get (x + d.1) (y + d.2)).visibility = .Hide
      · rw [if_pos hcond, ih _ (set_wf _ _ _ hwf) hnd_rest hb,
          get_set_ne hcond.1 hb hne]
        simp only [hmem_iff]
      · rw [if_neg hcond, ih g hwf hnd_rest hb]
        simp only [hmem_iff]

theorem solve_board_noop {g : Game} {p q : Int} (f : Nat)
    (h : ¬ g.is_in_bounds p q = true ∨ (g.get p q).visibility = .Hint ∨
      (g.get p q).visibility = .Show) :
    Game.solve_board (f + 1) g p q false = some (.ok g) := by
  unfold Game.solve_board
  rcases h with h | h | h
  · simp [h]
  · by_cases hb : g.is_in_bounds p q = true
    · simp only [hb, not_true_eq_false, if_false, Bool.not_eq_true]
      rw [h]
    · simp [hb]
  · by_cases hb : g.is_in_bounds p q = true
    · simp only [hb, not_true_eq_false, if_false, Bool.not_eq_true]
      rw [h]
      simp
    · simp [hb]

theorem solve_seq_noop (f : Nat) (g : Game) (x y : Int) (offs : List (Int × Int))
    (h : ∀ d ∈ offs, ¬ g.is_in_bounds (x + d.1) (y + d.2) = true ∨
      (g.get (x + d.1) (y + d.2)).visibility = .Hint ∨
      (g.get (x + d.1) (y + d.2)).visibility = .Show) :
    solve_seq (Game.solve_board (f + 1)) x y g offs = some (.ok g) := by
  induction offs with
  | nil => rfl
  | cons d rest ih =>
    have h1 := solve_board_noop f (h d (List.mem_cons_self d rest))
    simp only [solve_seq, h1]
    exact ih (fun d hd => h d (List.mem_cons_of_mem _ hd))

theorem adjacents_new_num_le8 : ∀ b1 b2 b3 b4 b5 b6 b7 b8 : Bool,
    (Adjacents.new b1 b2 b3 b4 b5 b6 b7 b8).num ≤ 8 := by decide

theorem adjacents_new_num_zero (b1 b2 b3 b4 b5 b6 b7 b8 : Bool) :
    (Adjacents.new b1 b2 b3 b4 b5 b6 b7 b8).num = 0 ↔
      b1 = false ∧ b2 = false ∧ b3 = false ∧ b4 = false ∧
      b5 = false ∧ b6 = false ∧ b7 = false ∧ b8 = false := by
  cases b1 <;> cases b2 <;> cases b3 <;> cases b4 <;>
    cases b5 <;> cases b6 <;> cases b7 <;> cases b8 <;> decide

theorem solve_board_show_force {g : Game} {x y : Int} (f : Nat)
    (hb : g.is_in_bounds x y = true) (hv : (g.get x y).visibility = .Show) :
    Game.solve_board (f + 1) g x y true = solve_state (Game.solve_board f) g x y := by
  unfold Game.solve_board
  simp only [hb, not_true_eq_false, if_false, Bool.not_eq_true]
  rw [hv]
  simp

theorem is_hidden_field_false {g : Game} {p q : Int} (h : g.is_hidden_field p q = false)
    (hb : g.is_in_bounds p q = true) : ¬ (g.get p q).visibility = .Hide := by
  unfold Game.is_hidden_field at h
  simp [hb] at h
  exact h

theorem hidden_num_zero_all {g : Game} {x y : Int}
    (h0 : (g.hidden_adjacents x y).num = 0) :
    ∀ dx dy : Int, (dx, dy) ∈ sweepOffsets → g.is_hidden_field (x + dx) (y + dy) = false := by
  have h := (adjacents_new_num_zero (g.is_hidden_field (x - 1) (y - 1))
    (g.is_hidden_field (x + 0) (y - 1)) (g.is_hidden_field (x + 1) (y - 1))
    (g.is_hidden_field (x + 1) (y + 0)) (g.is_hidden_field (x + 1) (y + 1))
    (g.is_hidden_field (x + 0) (y + 1)) (g.is_hidden_field (x - 1) (y + 1))
    (g.is_hidden_field (x - 1) (y + 0))).1 h0
  obtain ⟨h1, h2, h3, h4, h5, h6, h7, h8⟩ := h
  have em : ∀ u : Int, u + (-1 : Int) = u - 1 := fun u => by ring
  intro dx dy hd
  fin_cases hd
  · rw [em, em]; exact h1
  · rw [em, show y + (0 : Int) = y + 0 from rfl]; exact h8
  · rw [em]
    exact h7
  · rw [em]
    exact h2
  · exact h6
  · rw [em]
    exact h3
  · exact h4
  · exact h5

theorem sub8_zero_forces {h k : Nat} (hh : h ≤ 8) (hk : k ≤ 8)
    (he : sub8 0 h = k) : h = 0 ∧ k = 0 := by
  unfold sub8 at he
  omega

theorem not_hide_cases {g : Game} {p q : Int} (h : ¬ (g.get p q).visibility = .Hide) :
    (g.get p q).visibility = .Hint ∨ (g.get p q).visibility = .Show := by
  cases hv : (g.get p q).visibility
  · exact absurd hv h
  · exact Or.inl rfl
  · exact Or.inr rfl

/-- C4: when the deduction pass processes a revealed Free(n) cell whose
missing count n - hinted equals its hidden-neighbor count, every
previously hidden neighbor ends up Hinted, neighbors that were already
Hinted or Shown are unchanged, and every cell other than the 8 neighbors
(in particular everything out of the neighborhood) is unchanged. -/
theorem C4_rule_a_flags_hidden (g : Game) (x y : Int) (n : Nat) (f : Nat)
    (hwf : g.wf) (hb : g.is_in_bounds x y = true)
    (hvis : (g.get x y).visibility = .Show)
    (hst : (g.get x y).state = .Free n)
    (hm : sub8 n (g.hinted_adjacents x y).num = (g.hidden_adjacents x y).num) :
    ∃ g2, Game.solve_board (f + 2) g x y true = some (.ok g2) ∧
      (∀ d ∈ sweepOffsets,
        (g.is_in_bounds (x + d.1) (y + d.2) = true →
          (g.get (x + d.1) (y + d.2)).visibility = .Hide →
            (g2.get (x + d.1) (y + d.2)).visibility = .Hint) ∧
        (g.is_in_bounds (x + d.1) (y + d.2) = true →
          (g.get (x + d.1) (y + d.2)).visibility ≠ .Hide →
            g2.get (x + d.1) (y + d.2) = g.get (x + d.1) (y + d.2))) ∧
      (∀ u v, g.is_in_bounds u v = true → (u - x, v - y) ∉ sweepOffsets →
        g2.get u v = g.get u v) := by
  have hnodup : sweepOffsets.Nodup := by decide
  have hcancel : ∀ (a b : Int), (x + a - x, y + b - y) = (a, b) := by
    intro a b
    simp only [Prod.mk.injEq]
    omega
  rw [solve_board_show_force (f + 1) hb hvis]
  cases n with
  | zero =>
    -- rule A is vacuous here: the hypothesis forces hinted = hidden = 0,
    -- and the Free(0) branch floods neighbors that are all no-ops
    have hh8 : (g.hinted_adjacents x y).num ≤ 8 := adjacents_new_num_le8 ..
    have hd8 : (g.hidden_adjacents x y).num ≤ 8 := adjacents_new_num_le8 ..
    obtain ⟨hh0, hd0⟩ := sub8_zero_forces hh8 hd8 hm
    have hall := hidden_num_zero_all hd0
    refine ⟨g, ?_, ?_, ?_⟩
    · unfold solve_state
      rw [hst]
      exact solve_seq_noop f g x y floodOffsets (by
        intro d hd
        have hmem : (d.1, d.2) ∈ sweepOffsets := by
          rw [Prod.mk.eta]
          fin_cases hd <;> decide
        by_cases hbb : g.is_in_bounds (x + d.1) (y + d.2) = true
        · exact Or.inr (not_hide_cases (is_hidden_field_false (hall d.1 d.2 hmem) hbb))
        · exact Or.inl hbb)
    · intro d hd
      constructor
      · intro hbb hHide
        exact absurd hHide (is_hidden_field_false
          (hall d.1 d.2 (by rw [Prod.mk.eta]; exact hd)) hbb)
      · intro _ _
        rfl
    · intro u v _ _
      rfl
  | succ m =>
    have e2 : solve_state (Game.solve_board (f + 1)) g x y
        = (if m + 1 = ((g.hint_all x y).hinted_adjacents x y).num
           then solve_seq (Game.solve_board (f + 1)) x y (g.hint_all x y) sweepOffsets
           else some (.ok (g.hint_all x y))) := by
      unfold solve_state
      rw [hst]
      simp only [hm, if_pos, ite_true, eq_self_iff_true]
    have hget2 : ∀ u v : Int, g.is_in_bounds u v = true →
        (g.hint_all x y).get u v =
          if (u - x, v - y) ∈ sweepOffsets ∧ (g.get u v).visibility = .Hide
          then { g.get u v with visibility := .Hint }
          else g.get u v := by
      intro u v hbv
      rw [hint_all_eq_hint_list]
      exact hint_list_get g x y sweepOffsets hwf hnodup u v hbv
    have hsolved : solve_state (Game.solve_board (f + 1)) g x y
        = some (.ok (g.hint_all x y)) := by
      rw [e2]
      by_cases hB : m + 1 = ((g.hint_all x y).hinted_adjacents x y).num
      · rw [if_pos hB]
        apply solve_seq_noop
        intro d hd
        have hmem : (d.1, d.2) ∈ sweepOffsets := by
          rw [Prod.mk.eta]
          exact hd
        by_cases hbb : g.is_in_bounds (x + d.1) (y + d.2) = true
        · right
          have hg := hget2 (x + d.1) (y + d.2) hbb
          rw [hcancel d.1 d.2] at hg
          by_cases hHide : (g.get (x + d.1) (y + d.2)).visibility = .Hide
          · rw [if_pos ⟨hmem, hHide⟩] at hg
            left
            rw [hg]
          · rw [if_neg (fun hcon => hHide hcon.2)] at hg
            have := not_hide_cases hHide
            rw [hg]
            exact this
        · left
          rw [hint_all_eq_hint_list, hint_list_is_in_bounds]
          exact hbb
      · rw [if_neg hB]
    refine ⟨g.hint_all x y, hsolved, ?_, ?_⟩
    · intro d hd
      have hmem : (d.1, d.2) ∈ sweepOffsets := by
        rw [Prod.mk.eta]
        exact hd
      constructor
      · intro hbb hHide
        have hg := hget2 (x + d.1) (y + d.2) hbb
        rw [hcancel d.1 d.2, if_pos ⟨hmem, hHide⟩] at hg
        rw [hg]
      · intro hbb hnH
        have hg := hget2 (x + d.1) (y + d.2) hbb
        rw [hcancel d.1 d.2, if_neg (fun hcon => hnH hcon.2)] at hg
        exact hg
    · intro u v hbv hnot
      have hg := hget2 u v hbv
      rw [if_neg (fun hcon => hnot hcon.1)] at hg
      exact hg

/-- A 1 × 2 board: (0,0) is a shown Free(1), (0,1) a hidden mine. -/
def board_c4 : Game :=
  { num_mines := 1, width := 1, height := 2
    fields := [⟨.Show, .Free 1⟩, ⟨.Hide, .Mine⟩] }

/-- Witness for C4: on board_c4 the deduction pass turns the hidden
neighbor (0,1) into a hint. -/
theorem C4_witness :
    ∃ g2, Game.solve_board 2 board_c4 0 0 true = some (.ok g2) ∧
      (g2.get (0 + (0 : Int)) (0 + (1 : Int))).visibility = .Hint := by
  obtain ⟨g2, hrun, hconj, _⟩ := C4_rule_a_flags_hidden board_c4 0 0 1 0
    (by decide) (by decide) (by decide) (by decide) (by decide)
  exact ⟨g2, hrun, (hconj (0, 1) (by decide)).1 (by decide) (by decide)⟩

/-! ## C6: candidate selection and ordering of guess_mines -/

theorem mem_intRange {s e a : Int} : a ∈ intRange s e ↔ s ≤ a ∧ a < e := by
  unfold intRange
  simp only [List.mem_map, List.mem_range]
  constructor
  · rintro ⟨i, hi, rfl⟩
    omega
  · intro ⟨h1, h2⟩
    exact ⟨(a - s).toNat, by omega, by omega⟩

theorem cand_at_some_iff {g : Game} {x y : Int} {c : Cand} :
    cand_at g x y = some c ↔
      (g.get x y).visibility = .Show ∧
      ∃ n, (g.get x y).state = .Free n ∧
        c = ⟨x, y, sub8 n (g.hinted_adjacents x y).num, g.hidden_adjacents x y⟩ ∧
        0 < c.num_missing ∧ c.num_missing < c.adj.num := by
  constructor
  · intro h
    unfold cand_at at h
    dsimp only at h
    split at h
    case isTrue hv =>
      split at h
      case _ n hst =>
        split at h
        case isTrue hcond =>
          obtain rfl := (Option.some_inj.1 h).symm
          exact ⟨hv, n, hst, rfl, hcond.1, hcond.2⟩
        case isFalse => cases h
      case _ hst => cases h
    case isFalse hv => cases h
  · rintro ⟨hshow, n, hn, rfl, hp1, hp2⟩
    unfold cand_at
    dsimp only
    rw [if_pos hshow, hn]
    show (if 0 < sub8 n (g.hinted_adjacents x y).num ∧
        sub8 n (g.hinted_adjacents x y).num < (g.hidden_adjacents x y).num
      then some (⟨x, y, sub8 n (g.hinted_adjacents x y).num, g.hidden_adjacents x y⟩ : Cand)
      else none) = _
    rw [if_pos ⟨hp1, hp2⟩]

theorem mem_possible_fields {g : Game} {xs xe ys ye : Int} {c : Cand} :
    c ∈ possible_fields g xs xe ys ye ↔
      xs ≤ c.x ∧ c.x < xe ∧ ys ≤ c.y ∧ c.y < ye ∧ cand_at g c.x c.y = some c := by
  unfold possible_fields
  simp only [List.mem_flatMap, List.mem_filterMap, mem_intRange]
  constructor
  · rintro ⟨y, ⟨hy1, hy2⟩, x, ⟨hx1, hx2⟩, hc⟩
    obtain ⟨_, n, _, rfl, _, _⟩ := cand_at_some_iff.1 hc
    exact ⟨hx1, hx2, hy1, hy2, hc⟩
  · rintro ⟨h1, h2, h3, h4, hc⟩
    exact ⟨c.y, ⟨h3, h4⟩, c.x, ⟨h1, h2⟩, hc⟩

theorem cand_le_trans : ∀ a b c : Cand,
    cand_le a b = true → cand_le b c = true → cand_le a c = true := by
  intro a b c
  unfold cand_le
  simp only [Bool.or_eq_true, Bool.and_eq_true, decide_eq_true_eq]
  omega

theorem cand_le_total : ∀ a b : Cand, cand_le a b = true ∨ cand_le b a = true := by
  intro a b
  unfold cand_le
  simp only [Bool.or_eq_true, Bool.and_eq_true, decide_eq_true_eq]
  omega

instance : IsTotal Cand (fun c1 c2 => cand_le c1 c2 = true) := ⟨cand_le_total⟩

instance : IsTrans Cand (fun c1 c2 => cand_le c1 c2 = true) := ⟨cand_le_trans⟩

/-- C6: the branching candidates of guess_mines are exactly the shown
Free cells of the scanned region with 0 < missing < hidden count; the
guessing loop visits them in ascending (hidden - missing, missing)
order (a sorted permutation of the scan); and with no candidate at all
guess_mines returns NoMissingNeighbors. -/
theorem C6_guess_candidates (g : Game) (x_s x_e y_s y_e : Int) (f dep : Nat) :
    (∀ c : Cand, c ∈ possible_fields g x_s x_e y_s y_e ↔
      (x_s ≤ c.x ∧ c.x < x_e ∧ y_s ≤ c.y ∧ c.y < y_e ∧
        (g.get c.x c.y).visibility = .Show ∧
        (∃ n, (g.get c.x c.y).state = .Free n ∧
          c = ⟨c.x, c.y, sub8 n (g.hinted_adjacents c.x c.y).num,
            g.hidden_adjacents c.x c.y⟩) ∧
        0 < c.num_missing ∧ c.num_missing < c.adj.num)) ∧
    (List.Pairwise (fun c1 c2 => cand_le c1 c2 = true)
        (sort_cands (possible_fields g x_s x_e y_s y_e)) ∧
      (sort_cands (possible_fields g x_s x_e y_s y_e)).Perm
        (possible_fields g x_s x_e y_s y_e)) ∧
    (possible_fields g x_s x_e y_s y_e = [] →
      Game.guess_mines (f + 1) g x_s x_e y_s y_e dep = some (.ok .NoMissingNeighbors)) := by
  refine ⟨?_, ⟨?_, ?_⟩, ?_⟩
  · intro c
    rw [mem_possible_fields]
    constructor
    · rintro ⟨h1, h2, h3, h4, hc⟩
      obtain ⟨hshow, n, hn, hceq, hp1, hp2⟩ := cand_at_some_iff.1 hc
      exact ⟨h1, h2, h3, h4, hshow, ⟨n, hn, by rw [hceq]⟩, hp1, hp2⟩
    · rintro ⟨h1, h2, h3, h4, hshow, ⟨n, hn, hceq⟩, hp1, hp2⟩
      refine ⟨h1, h2, h3, h4, cand_at_some_iff.2 ⟨hshow, n, hn, by rw [← hceq], hp1, hp2⟩⟩
  · exact List.sorted_insertionSort (fun c1 c2 => cand_le c1 c2 = true) _
  · exact List.perm_insertionSort (fun c1 c2 => cand_le c1 c2 = true) _
  · intro hempty
    unfold Game.guess_mines
    rw [hempty]
    rfl

/-- Witness for C6 on a fully hidden 2 × 2 board, whose scan has no
candidate: guess_mines answers NoMissingNeighbors. -/
theorem C6_witness :
    Game.guess_mines 1 (mk_empty 2 2 0) 0 2 0 2 0 = some (.ok .NoMissingNeighbors) := by
  have h := C6_guess_candidates (mk_empty 2 2 0) 0 2 0 2 0 0
  exact h.2.2 (by decide)

/-! ## C2: ambiguity bookkeeping of the guessing loop -/

theorem guess_loop_all_stuck
    (gm : Game → Int → Int → Int → Int → Nat → Option (Except Error Solve))
    (g : Game) (dep : Nat) (cands : List Cand) (amb : Nat)
    (hall : ∀ c ∈ cands, process_cand gm g dep c = some .ambig ∨
      process_cand gm g dep c = some .noValid) :
    guess_loop gm g dep cands amb
      = some (.error
          (if 0 < amb ∨ ∃ c ∈ cands, process_cand gm g dep c = some .ambig
           then .Ambigous else .Invalid)) := by
  induction cands generalizing amb with
  | nil =>
    simp only [guess_loop, List.not_mem_nil, false_and, exists_false, or_false]
  | cons c rest ih =>
    rcases hall c (List.mem_cons_self c rest) with h | h
    · rw [show guess_loop gm g dep (c :: rest) amb
          = (match process_cand gm g dep c with
            | none => none
            | some (.retEarly r) => some r
            | some .ambig => guess_loop gm g dep rest (amb + 1)
            | some .noValid => guess_loop gm g dep rest amb) from rfl, h]
      rw [ih (amb + 1) (fun c hc => hall c (List.mem_cons_of_mem _ hc))]
      have hl : 0 < amb + 1 ∨ ∃ c2 ∈ rest, process_cand gm g dep c2 = some .ambig :=
        Or.inl (Nat.succ_pos amb)
      have hr : 0 < amb ∨ ∃ c2 ∈ c :: rest, process_cand gm g dep c2 = some .ambig :=
        Or.inr ⟨c, List.mem_cons_self c rest, h⟩
      rw [if_pos hl, if_pos hr]
    · rw [show guess_loop gm g dep (c :: rest) amb
          = (match process_cand gm g dep c with
            | none => none
            | some (.retEarly r) => some r
            | some .ambig => guess_loop gm g dep rest (amb + 1)
            | some .noValid => guess_loop gm g dep rest amb) from rfl, h]
      rw [ih amb (fun c hc => hall c (List.mem_cons_of_mem _ hc))]
      have hiff : (0 < amb ∨ ∃ c2 ∈ rest, process_cand gm g dep c2 = some .ambig)
          ↔ (0 < amb ∨ ∃ c2 ∈ c :: rest, process_cand gm g dep c2 = some .ambig) := by
        constructor
        · rintro (h1 | ⟨c2, hc2, he⟩)
          · exact Or.inl h1
          · exact Or.inr ⟨c2, List.mem_cons_of_mem _ hc2, he⟩
        · rintro (h1 | ⟨c2, hc2, he⟩)
          · exact Or.inl h1
          · rcases List.mem_cons.1 hc2 with rfl | hc2
            · rw [he] at h
              cases h
            · exact Or.inr ⟨c2, hc2, he⟩
      by_cases hcond : 0 < amb ∨ ∃ c2 ∈ rest, process_cand gm g dep c2 = some .ambig
      · rw [if_pos hcond, if_pos (hiff.1 hcond)]
      · rw [if_neg hcond, if_neg (fun hc => hcond (hiff.2 hc))]

theorem guess_mines_unfold (g : Game) (x_s x_e y_s y_e : Int) (f dep : Nat)
    (hne : possible_fields g x_s x_e y_s y_e ≠ []) :
    Game.guess_mines (f + 1) g x_s x_e y_s y_e dep
      = guess_loop (Game.guess_mines f) g dep
          (sort_cands (possible_fields g x_s x_e y_s y_e)) 0 := by
  unfold Game.guess_mines
  rw [if_neg (by simp [List.isEmpty_iff, hne])]

/-- C2: when candidates exist but every candidate cell yields either no
surviving hypothesis or a second surviving one, guess_mines returns
Ambigous if some cell had a second survivor and Invalid otherwise; and
as soon as a second surviving hypothesis appears, the combination loop
for that cell stops (ignores all remaining masks) and reports ambig. -/
theorem C2_guess_ambiguous_or_invalid (g : Game) (x_s x_e y_s y_e : Int) (f dep : Nat)
    (hne : possible_fields g x_s x_e y_s y_e ≠ [])
    (hall : ∀ c ∈ sort_cands (possible_fields g x_s x_e y_s y_e),
      process_cand (Game.guess_mines f) g dep c = some .ambig ∨
      process_cand (Game.guess_mines f) g dep c = some .noValid) :
    ((∃ c ∈ sort_cands (possible_fields g x_s x_e y_s y_e),
        process_cand (Game.guess_mines f) g dep c = some .ambig) →
      Game.guess_mines (f + 1) g x_s x_e y_s y_e dep = some (.error .Ambigous)) ∧
    ((∀ c ∈ sort_cands (possible_fields g x_s x_e y_s y_e),
        process_cand (Game.guess_mines f) g dep c = some .noValid) →
      Game.guess_mines (f + 1) g x_s x_e y_s y_e dep = some (.error .Invalid)) ∧
    (∀ c mask rest vb b,
      eval_hyp (Game.guess_mines f) g c dep mask = some (.survive b) →
      comb_loop (Game.guess_mines f) g c dep (mask :: rest) (some vb) = some .ambig) := by
  refine ⟨?_, ?_, ?_⟩
  · intro hex
    rw [guess_mines_unfold g x_s x_e y_s y_e f dep hne,
      guess_loop_all_stuck _ _ _ _ _ hall, if_pos (Or.inr hex)]
  · intro hnv
    rw [guess_mines_unfold g x_s x_e y_s y_e f dep hne,
      guess_loop_all_stuck _ _ _ _ _ hall]
    rw [if_neg]
    rintro (h0 | ⟨c, hc, he⟩)
    · exact absurd h0 (by omega)
    · rw [hnv c hc] at he
      cases he
  · intro c mask rest vb b hs
    rw [show comb_loop (Game.guess_mines f) g c dep (mask :: rest) (some vb)
        = (match eval_hyp (Game.guess_mines f) g c dep mask with
          | none => none
          | some .discard => comb_loop (Game.guess_mines f) g c dep rest (some vb)
          | some .done => some (.retEarly (.ok .Done))
          | some (.survive b) => some .ambig) from rfl, hs]

/-- The 1 × 3 board used as the C2 witness: a shown Free(1) between two
hidden cells, an inherently ambiguous position. -/
def board_c2 : Game :=
  { num_mines := 1, width := 1, height := 3
    fields := [⟨.Hide, .Mine⟩, ⟨.Show, .Free 1⟩, ⟨.Hide, .Free 0⟩] }

/-- Witness for C2: both hypotheses for the single candidate of
board_c2 survive, so guess_mines reports Ambigous. -/
theorem C2_witness :
    Game.guess_mines 2 board_c2 0 1 0 3 0 = some (.error .Ambigous) := by
  have h := C2_guess_ambiguous_or_invalid board_c2 0 1 0 3 1 0 (by decide) (by decide)
  exact h.1 ⟨⟨0, 1, 1, board_c2.hidden_adjacents 0 1⟩, by decide, by decide⟩

/-! ## C9: the solver only changes visibility -/

/-- Frame relation: dimensions, mine target, field count and every
field's content are unchanged (only visibility may differ). -/
def FrameEq (g g2 : Game) : Prop :=
  g2.num_mines = g.num_mines ∧ g2.width = g.width ∧ g2.height = g.height ∧
  g2.fields.length = g.fields.length ∧
  ∀ i, (g2.fields.getD i default).state = (g.fields.getD i default).state

theorem frameEq_refl (g : Game) : FrameEq g g :=
  ⟨rfl, rfl, rfl, rfl, fun _ => rfl⟩

theorem frameEq_trans {g1 g2 g3 : Game} (h1 : FrameEq g1 g2) (h2 : FrameEq g2 g3) :
    FrameEq g1 g3 :=
  ⟨h2.1.trans h1.1, h2.2.1.trans h1.2.1, h2.2.2.1.trans h1.2.2.1,
    h2.2.2.2.1.trans h1.2.2.2.1, fun i => (h2.2.2.2.2 i).trans (h1.2.2.2.2 i)⟩

theorem frame_set_vis (g : Game) (x y : Int) (v : Visibility) :
    FrameEq g (g.set x y { g.get x y with visibility := v }) := by
  refine ⟨rfl, rfl, rfl, set_length .., fun i => ?_⟩
  show ((g.fields.set (g.width * y + x).toNat _).getD i default).state = _
  rw [List.getD_eq_getElem?_getD, List.getElem?_set]
  split
  · rename_i hii
    split
    · rename_i hlen
      subst hii
      show (g.get x y).state = _
      unfold Game.get
      rw [List.getD_eq_getElem?_getD]
    · rename_i hlen
      subst hii
      rw [List.getD_eq_getElem?_getD g.fields, List.getElem?_eq_none (le_of_not_lt hlen)]
  · rw [← List.getD_eq_getElem?_getD]

theorem frame_get_state {g g2 : Game} (h : FrameEq g g2) (p q : Int) :
    (g2.get p q).state = (g.get p q).state := by
  unfold Game.get
  rw [h.2.1]
  exact h.2.2.2.2 _

theorem frame_is_in_bounds {g g2 : Game} (h : FrameEq g g2) (p q : Int) :
    g2.is_in_bounds p q = g.is_in_bounds p q := by
  unfold Game.is_in_bounds
  rw [h.2.1, h.2.2.1]

theorem frame_hint_hidden_field (g : Game) (p q : Int) :
    FrameEq g (g.hint_hidden_field p q) := by
  rw [hint_hidden_field_eq]
  split
  · exact frame_set_vis ..
  · exact frameEq_refl g

theorem frame_hint_list (g : Game) (x y : Int) (offs : List (Int × Int)) :
    FrameEq g (hint_list g x y offs) := by
  induction offs generalizing g with
  | nil => exact frameEq_refl g
  | cons d rest ih =>
    exact frameEq_trans (frame_hint_hidden_field g (x + d.1) (y + d.2))
      (ih (g.hint_hidden_field (x + d.1) (y + d.2)))

theorem frame_hint_ (g : Game) (x y : Int) : FrameEq g (g.hint_ x y) := by
  unfold Game.hint_
  dsimp only
  split
  · exact frameEq_refl g
  · split
    · exact frame_set_vis ..
    · split
      · exact frame_set_vis ..
      · exact frameEq_refl g

theorem frame_solve_seq
    (sb : Game → Int → Int → Bool → Option (Except Error Game))
    (hsb : ∀ g p q force g2, sb g p q force = some (.ok g2) → FrameEq g g2)
    (x y : Int) (offs : List (Int × Int)) :
    ∀ g g2, solve_seq sb x y g offs = some (.ok g2) → FrameEq g g2 := by
  induction offs with
  | nil =>
    intro g g2 h
    cases h
    exact frameEq_refl g
  | cons d rest ih =>
    intro g g2 h
    unfold solve_seq at h
    cases hsb1 : sb g (x + d.1) (y + d.2) false with
    | none => rw [hsb1] at h; cases h
    | some r =>
      cases r with
      | error e => rw [hsb1] at h; cases h
      | ok gm =>
        rw [hsb1] at h
        exact frameEq_trans (hsb g (x + d.1) (y + d.2) false gm hsb1) (ih gm g2 h)

theorem frame_solve_state
    (sb : Game → Int → Int → Bool → Option (Except Error Game))
    (hsb : ∀ g p q force g2, sb g p q force = some (.ok g2) → FrameEq g g2)
    (g : Game) (x y : Int) (g2 : Game)
    (h : solve_state sb g x y = some (.ok g2)) : FrameEq g g2 := by
  unfold solve_state at h
  split at h
  · exact frame_solve_seq sb hsb x y floodOffsets g g2 h
  · dsimp only at h
    split at h
    · split at h
      · exact frameEq_trans (frame_hint_list ..)
          (frame_solve_seq sb hsb x y sweepOffsets _ g2 h)
      · have h3 := Except.ok.inj (Option.some_inj.1 h)
        rw [← h3]
        exact frame_hint_list ..
    · split at h
      · exact frame_solve_seq sb hsb x y sweepOffsets g g2 h
      · have h3 := Except.ok.inj (Option.some_inj.1 h)
        rw [← h3]
        exact frameEq_refl g
  · cases h

theorem frame_solve_board :
    ∀ f g x y force g2, Game.solve_board f g x y force = some (.ok g2) → FrameEq g g2 := by
  intro f
  induction f with
  | zero => intro g x y force g2 h; cases h
  | succ f ih =>
    intro g x y force g2 h
    unfold Game.solve_board at h
    split at h
    · cases h
      exact frameEq_refl g
    · dsimp only at h
      split at h
      · split at h
        · cases h
        · exact frameEq_trans (frame_set_vis ..)
            (frame_solve_state _ (fun g p q fo g2 => ih g p q fo g2) _ x y g2 h)
      · cases h
        exact frameEq_refl g
      · split at h
        · exact frame_solve_state _ (fun g p q fo g2 => ih g p q fo g2) _ x y g2 h
        · cases h
          exact frameEq_refl g

theorem frame_show_seq
    (sn : Game → Int → Int → Option Game)
    (hsn : ∀ g p q g2, sn g p q = some g2 → FrameEq g g2)
    (x y : Int) (offs : List (Int × Int)) :
    ∀ g g2, show_seq sn x y g offs = some g2 → FrameEq g g2 := by
  induction offs with
  | nil =>
    intro g g2 h
    cases h
    exact frameEq_refl g
  | cons d rest ih =>
    intro g g2 h
    unfold show_seq at h
    cases hs : sn g (x + d.1) (y + d.2) with
    | none => rw [hs] at h; cases h
    | some gm =>
      rw [hs] at h
      exact frameEq_trans (hsn g (x + d.1) (y + d.2) gm hs) (ih gm g2 h)

theorem frame_show_neighbors :
    ∀ f g x y g2, Game.show_neighbors f g x y = some g2 → FrameEq g g2 := by
  intro f
  induction f with
  | zero => intro g x y g2 h; cases h
  | succ f ih =>
    intro g x y g2 h
    unfold Game.show_neighbors at h
    split at h
    · cases h
      exact frameEq_refl g
    · dsimp only at h
      split at h
      · cases h
        exact frameEq_refl g
      · split at h
        · cases h
          exact frame_set_vis ..
        · exact frameEq_trans (frame_set_vis ..)
            (frame_show_seq _ (fun g p q g2 => ih g p q g2) x y sweepOffsets _ g2 h)

theorem frame_apply_mask (g : Game) (x y : Int) (offs : List (Int × Int))
    (mask : List Bool) : FrameEq g (apply_mask g x y offs mask) := by
  unfold apply_mask
  generalize (offs.zip mask) = l
  induction l generalizing g with
  | nil => exact frameEq_refl g
  | cons p rest ih =>
    rw [List.foldl_cons]
    refine frameEq_trans ?_ (ih _)
    split
    · exact frame_set_vis ..
    · exact frameEq_refl g

/-- A guess_mines result only carries a board in the Progress case; this
predicate states that such a board is frame-equal to the input. -/
def ProgOk (g : Game) (r : Except Error Solve) : Prop :=
  ∀ b, r = .ok (.Progress b) → FrameEq g b

theorem frame_eval_hyp
    (gm : Game → Int → Int → Int → Int → Nat → Option (Except Error Solve))
    (hgm : ∀ g xs xe ys ye dep r, gm g xs xe ys ye dep = some r → ProgOk g r)
    (g : Game) (c : Cand) (dep : Nat) (mask : List Bool) (b : Game)
    (h : eval_hyp gm g c dep mask = some (.survive b)) : FrameEq g b := by
  have hb0 : FrameEq g (apply_mask g c.x c.y c.adj.offsets mask) := frame_apply_mask ..
  unfold eval_hyp at h
  dsimp only at h
  split at h
  · cases h
  · split at h
    · split at h
      · cases h
      · obtain rfl := HypResult.survive.inj (Option.some_inj.1 h)
        exact hb0
    · split at h
      · cases h
      · cases h
      · obtain rfl := HypResult.survive.inj (Option.some_inj.1 h)
        exact hb0
      · cases h
      · rename_i b2 heq
        obtain rfl := HypResult.survive.inj (Option.some_inj.1 h)
        exact frameEq_trans hb0 (hgm _ _ _ _ _ _ _ heq _ rfl)
      · obtain rfl := HypResult.survive.inj (Option.some_inj.1 h)
        exact hb0

theorem frame_comb_loop
    (gm : Game → Int → Int → Int → Int → Nat → Option (Except Error Solve))
    (hgm : ∀ g xs xe ys ye dep r, gm g xs xe ys ye dep = some r → ProgOk g r)
    (g : Game) (c : Cand) (dep : Nat) :
    ∀ (masks : List (List Bool)) (vb? : Option Game),
      (∀ b0, vb? = some b0 → FrameEq g b0) →
      ∀ cr, comb_loop gm g c dep masks vb? = some cr →
        ∀ r, cr = .retEarly r → ProgOk g r := by
  intro masks
  induction masks with
  | nil =>
    intro vb? hvb cr h r hcr
    cases vb? with
    | none =>
      obtain rfl := Option.some_inj.1 h
      cases hcr
    | some vb =>
      obtain rfl := Option.some_inj.1 h
      obtain rfl := CandResult.retEarly.inj hcr
      intro b hb
      split at hb
      · cases hb
      · obtain rfl := Solve.Progress.inj (Except.ok.inj hb)
        exact hvb _ rfl
  | cons mask rest ih =>
    intro vb? hvb cr h r hcr
    unfold comb_loop at h
    split at h
    · cases h
    · exact ih vb? hvb cr h r hcr
    · obtain rfl := Option.some_inj.1 h
      obtain rfl := CandResult.retEarly.inj hcr
      intro b hb
      cases hb
    · rename_i b2 heq
      split at h
      · exact ih _ (fun b0 hb0 => by
          obtain rfl := Option.some_inj.1 hb0
          exact frame_eval_hyp gm hgm g c dep mask _ heq) cr h r hcr
      · obtain rfl := Option.some_inj.1 h
        cases hcr

theorem frame_process_cand
    (gm : Game → Int → Int → Int → Int → Nat → Option (Except Error Solve))
    (hgm : ∀ g xs xe ys ye dep r, gm g xs xe ys ye dep = some r → ProgOk g r)
    (g : Game) (dep : Nat) (c : Cand) (cr : CandResult)
    (h : process_cand gm g dep c = some cr) :
    ∀ r, cr = .retEarly r → ProgOk g r := by
  unfold process_cand at h
  split at h
  · obtain rfl := Option.some_inj.1 h
    intro r hr b hb
    obtain rfl := CandResult.retEarly.inj hr
    cases hb
  · exact frame_comb_loop gm hgm g c dep _ none (fun b0 hb0 => by cases hb0) cr h

theorem frame_guess_loop
    (gm : Game → Int → Int → Int → Int → Nat → Option (Except Error Solve))
    (hgm : ∀ g xs xe ys ye dep r, gm g xs xe ys ye dep = some r → ProgOk g r)
    (g : Game) (dep : Nat) :
    ∀ (cands : List Cand) (amb : Nat) (r : Except Error Solve),
      guess_loop gm g dep cands amb = some r → ProgOk g r := by
  intro cands
  induction cands with
  | nil =>
    intro amb r h
    obtain rfl := Option.some_inj.1 h
    intro b hb
    cases hb
  | cons c rest ih =>
    intro amb r h
    unfold guess_loop at h
    split at h
    · cases h
    · rename_i r0 heq
      obtain rfl := Option.some_inj.1 h
      exact frame_process_cand gm hgm g dep c _ heq r0 rfl
    · exact ih (amb + 1) r h
    · exact ih amb r h

theorem frame_guess_mines :
    ∀ f g x_s x_e y_s y_e dep r, Game.guess_mines f g x_s x_e y_s y_e dep = some r →
      ProgOk g r := by
  intro f
  induction f with
  | zero => intro g xs xe ys ye dep r h; cases h
  | succ f ih =>
    intro g xs xe ys ye dep r h
    unfold Game.guess_mines at h
    dsimp only at h
    split at h
    · obtain rfl := Option.some_inj.1 h
      intro b hb
      cases hb
    · exact frame_guess_loop (Game.guess_mines f)
        (fun g xs xe ys ye dep r => ih g xs xe ys ye dep r) g dep _ 0 r h

/-- C9: the solving and playing operations — solve_board, guess_mines,
show_neighbors and the hint toggle — never change any cell's content
(Free neighbor count or Mine), nor width, height, num_mines, nor the
number of cells; they modify only visibility. -/
theorem C9_solver_preserves_contents :
    (∀ f g x y force g2, Game.solve_board f g x y force = some (.ok g2) → FrameEq g g2) ∧
    (∀ f g x_s x_e y_s y_e dep b,
      Game.guess_mines f g x_s x_e y_s y_e dep = some (.ok (.Progress b)) → FrameEq g b) ∧
    (∀ f g x y g2, Game.show_neighbors f g x y = some g2 → FrameEq g g2) ∧
    (∀ g x y, FrameEq g (g.hint_ x y)) :=
  ⟨frame_solve_board,
    fun f g xs xe ys ye dep b h => frame_guess_mines f g xs xe ys ye dep _ h b rfl,
    frame_show_neighbors, frame_hint_⟩

/-- Witness for C9: the deduction step run on board_c4 only flips the
mine cell to Hint, keeping all contents, dimensions and counts. -/
theorem C9_witness :
    FrameEq board_c4
      { num_mines := 1, width := 1, height := 2
        fields := [⟨.Show, .Free 1⟩, ⟨.Hint, .Mine⟩] } :=
  C9_solver_preserves_contents.1 2 board_c4 0 0 true _ (by rfl)

/-! ## C3: the flood-fill reveal -/

/-- One flood step only turns fields to Show: every field is unchanged
or its visibility was replaced by Show (dimensions and counts fixed). -/
def ShowStep (g g2 : Game) : Prop :=
  g2.num_mines = g.num_mines ∧ g2.width = g.width ∧ g2.height = g.height ∧
  g2.fields.length = g.fields.length ∧
  ∀ i, g2.fields.getD i default = g.fields.getD i default ∨
    g2.fields.getD i default = { g.fields.getD i default with visibility := .Show }

theorem showStep_refl (g : Game) : ShowStep g g :=
  ⟨rfl, rfl, rfl, rfl, fun _ => Or.inl rfl⟩

theorem showStep_trans {g1 g2 g3 : Game} (h1 : ShowStep g1 g2) (h2 : ShowStep g2 g3) :
    ShowStep g1 g3 := by
  refine ⟨h2.1.trans h1.1, h2.2.1.trans h1.2.1, h2.2.2.1.trans h1.2.2.1,
    h2.2.2.2.1.trans h1.2.2.2.1, fun i => ?_⟩
  rcases h2.2.2.2.2 i with e2 | e2 <;> rcases h1.2.2.2.2 i with e1 | e1 <;>
    rw [e2, e1] <;> simp

theorem showStep_set_show (g : Game) (x y : Int) :
    ShowStep g (g.set x y { g.get x y with visibility := .Show }) := by
  refine ⟨rfl, rfl, rfl, set_length .., fun i => ?_⟩
  by_cases hii : (g.width * y + x).toNat = i
  · subst hii
    by_cases hlen : (g.width * y + x).toNat < g.fields.length
    · right
      show (g.fields.set _ _).getD _ default = _
      rw [getD_set_self, if_pos hlen]
      rfl
    · left
      show (g.fields.set _ _).getD _ default = _
      rw [getD_set_self, if_neg hlen,
        List.getD_eq_getElem?_getD g.fields, List.getElem?_eq_none (le_of_not_lt hlen)]
      rfl
  · left
    show (g.fields.set _ _).getD _ default = _
    exact getD_set_ne _ hii _ _

theorem showStep_get {g g2 : Game} (h : ShowStep g g2) (p q : Int) :
    g2.get p q = g.get p q ∨
    g2.get p q = { g.get p q with visibility := .Show } := by
  unfold Game.get
  rw [h.2.1]
  exact h.2.2.2.2 _

theorem showStep_mono {g g2 : Game} (h : ShowStep g g2) (p q : Int)
    (hs : (g.get p q).visibility = .Show) : (g2.get p q).visibility = .Show := by
  rcases showStep_get h p q with e | e
  · rw [e]
    exact hs
  · rw [e]

theorem showStep_state {g g2 : Game} (h : ShowStep g g2) (p q : Int) :
    (g2.get p q).state = (g.get p q).state := by
  rcases showStep_get h p q with e | e <;> simp [e]

theorem showStep_inb {g g2 : Game} (h : ShowStep g g2) (p q : Int) :
    g2.is_in_bounds p q = g.is_in_bounds p q := by
  unfold Game.is_in_bounds
  rw [h.2.1, h.2.2.1]

theorem showStep_wf {g g2 : Game} (h : ShowStep g g2) (hwf : g.wf) : g2.wf := by
  unfold Game.wf at *
  rw [h.2.1, h.2.2.1, h.2.2.2.1, hwf]

theorem showStep_notShow {g g2 : Game} (h : ShowStep g g2) (p q : Int)
    (hns : (g2.get p q).visibility ≠ .Show) : (g.get p q).visibility ≠ .Show :=
  fun hs => hns (showStep_mono h p q hs)

theorem showStep_show_seq
    (sn : Game → Int → Int → Option Game)
    (hsn : ∀ g p q g2, sn g p q = some g2 → ShowStep g g2)
    (x y : Int) (offs : List (Int × Int)) :
    ∀ g g2, show_seq sn x y g offs = some g2 → ShowStep g g2 := by
  induction offs with
  | nil =>
    intro g g2 h
    cases h
    exact showStep_refl g
  | cons d rest ih =>
    intro g g2 h
    unfold show_seq at h
    cases hs : sn g (x + d.1) (y + d.2) with
    | none => rw [hs] at h; cases h
    | some gm =>
      rw [hs] at h
      exact showStep_trans (hsn g (x + d.1) (y + d.2) gm hs) (ih gm g2 h)

theorem showStep_show_neighbors :
    ∀ f g x y g2, Game.show_neighbors f g x y = some g2 → ShowStep g g2 := by
  intro f
  induction f with
  | zero => intro g x y g2 h; cases h
  | succ f ih =>
    intro g x y g2 h
    unfold Game.show_neighbors at h
    split at h
    · cases h
      exact showStep_refl g
    · dsimp only at h
      split at h
      · cases h
        exact showStep_refl g
      · split at h
        · cases h
          exact showStep_set_show ..
        · exact showStep_trans (showStep_set_show ..)
            (showStep_show_seq _ (fun g p q g2 => ih g p q g2) x y sweepOffsets _ g2 h)

/-- Flood reachability: cells reachable from the start by 8-adjacency
steps whose source is an in-bounds, not-yet-revealed Free(0) cell. This
is the exact closure computed by show_neighbors: connectivity passes
only through unrevealed zero cells. -/
inductive Reach (g : Game) (sx sy : Int) : Int → Int → Prop where
  | start : Reach g sx sy sx sy
  | step {a b c d : Int} : Reach g sx sy a b → g.is_in_bounds a b = true →
      (g.get a b).state = .Free 0 → (g.get a b).visibility ≠ .Show →
      (c - a, d - b) ∈ sweepOffsets → Reach g sx sy c d

theorem reach_mono {g g1 : Game} (h : ShowStep g g1) {sx sy p q : Int}
    (hr : Reach g1 sx sy p q) : Reach g sx sy p q := by
  induction hr with
  | start => exact .start
  | step hab hinb hfree hnshow hadj ih =>
    exact .step ih (showStep_inb h _ _ ▸ hinb)
      ((showStep_state h _ _).symm.trans hfree)
      (fun hs => (showStep_notShow h _ _ hnshow) hs)
      hadj

theorem reach_compose {g : Game} {sx sy a b p q : Int} (h1 : Reach g sx sy a b)
    (h2 : Reach g a b p q) : Reach g sx sy p q := by
  induction h2 with
  | start => exact h1
  | step hab hinb hfree hnshow hadj ih => exact .step ih hinb hfree hnshow hadj

theorem sound_aux : ∀ f : Nat,
    (∀ g x y g2, g.wf → Game.show_neighbors f g x y = some g2 →
      ∀ p q, g.is_in_bounds p q = true → (g2.get p q).visibility = .Show →
        (g.get p q).visibility = .Show ∨ Reach g x y p q) ∧
    (∀ g x y offs g2, g.wf → show_seq (Game.show_neighbors f) x y g offs = some g2 →
      ∀ p q, g.is_in_bounds p q = true → (g2.get p q).visibility = .Show →
        (g.get p q).visibility = .Show ∨
        ∃ d ∈ offs, Reach g (x + d.1) (y + d.2) p q) := by
  intro f
  induction f with
  | zero =>
    constructor
    · intro g x y g2 _ h
      cases h
    · intro g x y offs g2 _ h
      cases offs with
      | nil =>
        cases h
        intro p q _ hs
        exact Or.inl hs
      | cons d rest =>
        unfold show_seq at h
        cases h
  | succ f ih =>
    have hsn : ∀ g x y g2, g.wf → Game.show_neighbors (f + 1) g x y = some g2 →
        ∀ p q, g.is_in_bounds p q = true → (g2.get p q).visibility = .Show →
          (g.get p q).visibility = .Show ∨ Reach g x y p q := by
      intro g x y g2 hwf h p q hbpq hs2
      unfold Game.show_neighbors at h
      split at h
      · cases h
        exact Or.inl hs2
      · rename_i hbc
        have hbxy : g.is_in_bounds x y = true := by
          revert hbc
          by_cases hb : g.is_in_bounds x y = true <;> simp [hb]
        dsimp only at h
        split at h
        · cases h
          exact Or.inl hs2
        · rename_i hnshow
          split at h
          · rename_i hnfree
            cases h
            by_cases hc : p = x ∧ q = y
            · exact Or.inr (hc.1 ▸ hc.2 ▸ Reach.start)
            · left
              rw [get_set_ne hbxy hbpq hc] at hs2
              exact hs2
          · rename_i hfree
            have hfree2 : (g.get x y).state = .Free 0 := by
              revert hfree
              by_cases hf : (g.get x y).state = .Free 0 <;> simp [hf]
            have hss1 : ShowStep g (g.set x y { g.get x y with visibility := .Show }) :=
              showStep_set_show ..
            have hres := ih.2 _ x y sweepOffsets g2
              (set_wf _ _ _ hwf) h p q hbpq hs2
            rcases hres with hs1 | ⟨d, hd, hr⟩
            · by_cases hc : p = x ∧ q = y
              · exact Or.inr (hc.1 ▸ hc.2 ▸ Reach.start)
              · left
                rw [get_set_ne hbxy hbpq hc] at hs1
                exact hs1
            · right
              have hr2 : Reach g (x + d.1) (y + d.2) p q := reach_mono hss1 hr
              have hstep : Reach g x y (x + d.1) (y + d.2) := by
                refine Reach.step Reach.start hbxy hfree2 hnshow ?_
                have : (x + d.1 - x, y + d.2 - y) = (d.1, d.2) := by
                  simp only [Prod.mk.injEq]
                  omega
                rw [this, Prod.mk.eta]
                exact hd
              exact reach_compose hstep hr2
    refine ⟨hsn, ?_⟩
    intro g x y offs
    induction offs generalizing g with
    | nil =>
      intro g2 _ h p q _ hs2
      cases h
      exact Or.inl hs2
    | cons d rest ihl =>
      intro g2 hwf h p q hbpq hs2
      unfold show_seq at h
      cases hhead : Game.show_neighbors (f + 1) g (x + d.1) (y + d.2) with
      | none => rw [hhead] at h; cases h
      | some gm =>
        rw [hhead] at h
        have hssm : ShowStep g gm := showStep_show_neighbors _ _ _ _ _ hhead
        have hrest := ihl gm g2 (showStep_wf hssm hwf) h p q
          (showStep_inb hssm p q ▸ hbpq) hs2
        rcases hrest with hsm | ⟨d2, hd2, hr⟩
        · rcases hsn g (x + d.1) (y + d.2) gm hwf hhead p q hbpq hsm with h1 | h1
          · exact Or.inl h1
          · exact Or.inr ⟨d, List.mem_cons_self d rest, h1⟩
        · exact Or.inr ⟨d2, List.mem_cons_of_mem _ hd2, reach_mono hssm hr⟩

/-- Closure invariant of a completed flood call: every cell it newly
revealed that is a Free(0) cell has all its in-bounds neighbors
revealed. -/
def FloodInv (g g2 : Game) : Prop :=
  ∀ a b, g.is_in_bounds a b = true → (g2.get a b).visibility = .Show →
    (g.get a b).visibility = .Show ∨ (g2.get a b).state ≠ .Free 0 ∨
    ∀ d ∈ sweepOffsets, g.is_in_bounds (a + d.1) (b + d.2) = true →
      (g2.get (a + d.1) (b + d.2)).visibility = .Show

theorem floodInv_refl (g : Game) : FloodInv g g := fun _ _ _ hs => Or.inl hs

theorem floodInv_comp {g g1 g2 : Game} (s1 : ShowStep g g1) (s2 : ShowStep g1 g2)
    (i1 : FloodInv g g1) (i2 : FloodInv g1 g2) : FloodInv g g2 := by
  intro a b hb hs2
  by_cases h1 : (g1.get a b).visibility = .Show
  · rcases i1 a b hb h1 with hh | hh | hh
    · exact Or.inl hh
    · refine Or.inr (Or.inl ?_)
      rw [showStep_state s2]
      exact hh
    · exact Or.inr (Or.inr (fun d hd hbn => showStep_mono s2 _ _ (hh d hd hbn)))
  · rcases i2 a b (showStep_inb s1 a b ▸ hb) hs2 with hh | hh | hh
    · exact absurd hh h1
    · exact Or.inr (Or.inl hh)
    · refine Or.inr (Or.inr (fun d hd hbn => ?_))
      exact hh d hd (showStep_inb s1 _ _ ▸ hbn)

theorem complete_aux : ∀ f : Nat,
    (∀ g x y g2, g.wf → Game.show_neighbors f g x y = some g2 →
      (g.is_in_bounds x y = true → (g2.get x y).visibility = .Show) ∧ FloodInv g g2) ∧
    (∀ g x y offs g2, g.wf → show_seq (Game.show_neighbors f) x y g offs = some g2 →
      (∀ d ∈ offs, g.is_in_bounds (x + d.1) (y + d.2) = true →
        (g2.get (x + d.1) (y + d.2)).visibility = .Show) ∧ FloodInv g g2) := by
  intro f
  induction f with
  | zero =>
    constructor
    · intro g x y g2 _ h
      cases h
    · intro g x y offs g2 _ h
      cases offs with
      | nil =>
        cases h
        exact ⟨fun d hd => absurd hd (List.not_mem_nil d), floodInv_refl g⟩
      | cons d rest =>
        unfold show_seq at h
        cases h
  | succ f ih =>
    have hcn : ∀ g x y g2, g.wf → Game.show_neighbors (f + 1) g x y = some g2 →
        (g.is_in_bounds x y = true → (g2.get x y).visibility = .Show) ∧ FloodInv g g2 := by
      intro g x y g2 hwf h
      unfold Game.show_neighbors at h
      split at h
      · rename_i hbc
        cases h
        refine ⟨fun hbxy => ?_, floodInv_refl g⟩
        exact absurd hbxy (by simpa using hbc)
      · rename_i hbc
        have hbxy : g.is_in_bounds x y = true := by
          revert hbc
          by_cases hb : g.is_in_bounds x y = true <;> simp [hb]
        dsimp only at h
        split at h
        · rename_i hshow
          cases h
          exact ⟨fun _ => hshow, floodInv_refl g⟩
        · rename_i hnshow
          split at h
          · rename_i hnfree
            cases h
            refine ⟨fun _ => get_set_self hwf hbxy _ ▸ rfl, ?_⟩
            intro a b hb hs2
            by_cases hc : a = x ∧ b = y
            · obtain ⟨rfl, rfl⟩ := hc
              refine Or.inr (Or.inl ?_)
              rw [get_set_self hwf hbxy]
              revert hnfree
              by_cases hf : (g.get a b).state = .Free 0 <;> simp [hf]
            · left
              rw [get_set_ne hbxy hb hc] at hs2
              exact hs2
          · rename_i hfree
            have hfree2 : (g.get x y).state = .Free 0 := by
              revert hfree
              by_cases hf : (g.get x y).state = .Free 0 <;> simp [hf]
            have hss1 : ShowStep g (g.set x y { g.get x y with visibility := .Show }) :=
              showStep_set_show ..
            have hss2 : ShowStep (g.set x y { g.get x y with visibility := .Show }) g2 :=
              showStep_show_seq _ (fun g p q g2 => showStep_show_neighbors f g p q g2)
                x y sweepOffsets _ g2 h
            obtain ⟨hnbs, hinv1⟩ := ih.2 _ x y sweepOffsets g2 (set_wf _ _ _ hwf) h
            constructor
            · intro _
              exact showStep_mono hss2 x y (get_set_self hwf hbxy _ ▸ rfl)
            · intro a b hb hs2
              by_cases hc : a = x ∧ b = y
              · obtain ⟨rfl, rfl⟩ := hc
                refine Or.inr (Or.inr (fun d hd hbn => ?_))
                exact hnbs d hd hbn
              · by_cases hv1 : ((g.set x y { g.get x y with visibility := .Show }).get a b).visibility
                    = .Show
                · left
                  rw [get_set_ne hbxy hb hc] at hv1
                  exact hv1
                · rcases hinv1 a b hb hs2 with hh | hh | hh
                  · exact absurd hh hv1
                  · exact Or.inr (Or.inl hh)
                  · exact Or.inr (Or.inr hh)
    refine ⟨hcn, ?_⟩
    intro g x y offs
    induction offs generalizing g with
    | nil =>
      intro g2 _ h
      cases h
      exact ⟨fun d hd => absurd hd (List.not_mem_nil d), floodInv_refl g⟩
    | cons d rest ihl =>
      intro g2 hwf h
      unfold show_seq at h
      cases hhead : Game.show_neighbors (f + 1) g (x + d.1) (y + d.2) with
      | none => rw [hhead] at h; cases h
      | some gm =>
        rw [hhead] at h
        have hssm : ShowStep g gm := showStep_show_neighbors _ _ _ _ _ hhead
        have hss2 : ShowStep gm g2 :=
          showStep_show_seq _ (fun g p q g2 => showStep_show_neighbors (f + 1) g p q g2)
            x y rest gm g2 h
        obtain ⟨hhead_shown, hinv_head⟩ := hcn g (x + d.1) (y + d.2) gm hwf hhead
        obtain ⟨hrest_shown, hinv_rest⟩ := ihl gm g2 (showStep_wf hssm hwf) h
        constructor
        · intro d2 hd2 hbn
          rcases List.mem_cons.1 hd2 with rfl | hd2
          · exact showStep_mono hss2 _ _ (hhead_shown hbn)
          · exact hrest_shown d2 hd2 (showStep_inb hssm _ _ ▸ hbn)
        · exact floodInv_comp hssm hss2 hinv_head hinv_rest

theorem flood_reach_shown {f : Nat} {g : Game} {x y : Int} {g2 : Game}
    (hwf : g.wf) (h : Game.show_neighbors f g x y = some g2)
    {p q : Int} (hr : Reach g x y p q) (hbpq : g.is_in_bounds p q = true) :
    (g2.get p q).visibility = .Show := by
  have hss : ShowStep g g2 := showStep_show_neighbors f g x y g2 h
  obtain ⟨hcenter, hinv⟩ := (complete_aux f).1 g x y g2 hwf h
  revert hbpq
  induction hr with
  | start => exact fun hb => hcenter hb
  | @step a b c d hab hinb hfree hnshow hadj ih =>
    intro hbpq
    have hsab := ih hinb
    rcases hinv _ _ hinb hsab with hh | hh | hh
    · exact absurd hh hnshow
    · exact absurd ((showStep_state hss _ _).trans hfree) hh
    · have hstep := hh (c - a, d - b) hadj
      have hco1 : a + (c - a) = c := by ring
      have hco2 : b + (d - b) = d := by ring
      rw [hco1, hco2] at hstep
      exact hstep hbpq

/-- C3 (amended): the flood-fill reveal sets to Show exactly the cells
reachable from the start by 8-connected paths through unrevealed
Free(0) cells (the start's zero region restricted to unrevealed cells,
plus its border); it changes no other cell and no cell content; calls
out of bounds or on an already revealed cell are no-ops. -/
theorem C3_flood_fill_reach :
    (∀ (g : Game) (x y : Int) (f : Nat) (g2 : Game), g.wf →
      g.is_in_bounds x y = true → (g.get x y).state = .Free 0 →
      (g.get x y).visibility ≠ .Show → Game.show_neighbors f g x y = some g2 →
      (∀ p q, g.is_in_bounds p q = true →
        (((g2.get p q).visibility = .Show) ↔
          ((g.get p q).visibility = .Show ∨ Reach g x y p q)) ∧
        (g2.get p q).state = (g.get p q).state ∧
        (¬ Reach g x y p q → g2.get p q = g.get p q)) ∧
      g2.width = g.width ∧ g2.height = g.height ∧ g2.num_mines = g.num_mines) ∧
    (∀ (g : Game) (x y : Int) (f : Nat), ¬ g.is_in_bounds x y = true →
      Game.show_neighbors (f + 1) g x y = some g) ∧
    (∀ (g : Game) (x y : Int) (f : Nat), (g.get x y).visibility = .Show →
      Game.show_neighbors (f + 1) g x y = some g) := by
  refine ⟨?_, ?_, ?_⟩
  · intro g x y f g2 hwf hb hfree hns h
    have hss : ShowStep g g2 := showStep_show_neighbors f g x y g2 h
    refine ⟨?_, hss.2.1, hss.2.2.1, hss.1⟩
    intro p q hbpq
    refine ⟨⟨?_, ?_⟩, showStep_state hss p q, ?_⟩
    · exact fun hs2 => (sound_aux f).1 g x y g2 hwf h p q hbpq hs2
    · rintro (hs | hr)
      · exact showStep_mono hss p q hs
      · exact flood_reach_shown hwf h hr hbpq
    · intro hnr
      rcases showStep_get hss p q with e | e
      · exact e
      · by_cases hs : (g.get p q).visibility = .Show
        · exact e.trans (field_eta hs)
        · have hs2 : (g2.get p q).visibility = .Show := by
            rw [e]
          rcases (sound_aux f).1 g x y g2 hwf h p q hbpq hs2 with h1 | h1
          · exact absurd h1 hs
          · exact absurd h1 hnr
  · intro g x y f hb
    unfold Game.show_neighbors
    simp [hb]
  · intro g x y f hshow
    unfold Game.show_neighbors
    by_cases hb : g.is_in_bounds x y = true
    · simp [hb, hshow]
    · simp [hb]

/-- The full 8-connected zero-region closure the original claim talks
about: connectivity through in-bounds Free(0) cells, regardless of
whether they are already revealed, plus the bordering cells. -/
inductive Region (g : Game) (sx sy : Int) : Int → Int → Prop where
  | start : Region g sx sy sx sy
  | step {a b c d : Int} : Region g sx sy a b → g.is_in_bounds a b = true →
      (g.get a b).state = .Free 0 → (c - a, d - b) ∈ sweepOffsets → Region g sx sy c d

/-- The 3 × 1 board refuting the original C3 claim: all three cells are
Free(0), the middle one already revealed. -/
def board_c3 : Game :=
  { num_mines := 0, width := 3, height := 1
    fields := [⟨.Hide, .Free 0⟩, ⟨.Show, .Free 0⟩, ⟨.Hide, .Free 0⟩] }

/-- Counterexample to C3 as stated: on board_c3 the cell (0,0) is an
unrevealed in-bounds Free(0) cell and (2,0) lies in its maximal
8-connected Free(0) region (via (1,0)), so the claim demands that
revealing (0,0) shows (2,0); but the flood stops at the already revealed
(1,0) and leaves (2,0) hidden. -/
theorem C3_counterexample :
    board_c3.get 0 0 = ⟨.Hide, .Free 0⟩ ∧
    board_c3.is_in_bounds 0 0 = true ∧
    Region board_c3 0 0 2 0 ∧
    ∃ g2, Game.show_neighbors 9 board_c3 0 0 = some g2 ∧
      (g2.get 2 0).visibility ≠ .Show := by
  refine ⟨by decide, by decide, ?_, ?_⟩
  · exact @Region.step board_c3 0 0 1 0 2 0
      (@Region.step board_c3 0 0 0 0 1 0 Region.start (by decide) (by decide) (by decide))
      (by decide) (by decide) (by decide)
  · exact ⟨_, rfl, by decide⟩

/-- The 2 × 1 board used as the C3 witness. -/
def board_c3w : Game :=
  { num_mines := 0, width := 2, height := 1
    fields := [⟨.Hide, .Free 0⟩, ⟨.Hide, .Free 1⟩] }

/-- Witness for C3 (amended) on board_c3w: revealing (0,0) also shows
its bordering numbered neighbor (1,0). -/
theorem C3_witness :
    (((Game.show_neighbors 9 board_c3w 0 0).getD board_c3w).get 1 0).visibility
      = .Show := by
  have h := (C3_flood_fill_reach.1 board_c3w 0 0 9
    ((Game.show_neighbors 9 board_c3w 0 0).getD board_c3w)
    (by decide) (by decide) (by decide) (by decide) (by rfl)).1 1 0 (by decide)
  refine h.1.2 (Or.inr ?_)
  exact @Reach.step board_c3w 0 0 0 0 1 0 Reach.start
    (by decide) (by decide) (by decide) (by decide)

end Minesweeper
